import Mathlib

/-!
Verification of the minesweeper minefield engine (`minesweeper/field.py` and the
win-condition check of `minesweeper/application.py`).

Grids (numpy 2-D integer arrays) are embedded as lists of rows of naturals.
The time-seeded random shuffle of `np.random.shuffle` is modelled as a given
stream of shuffle functions, one per sampling attempt; the unbounded
resampling loop of `Field._initialize` and the worklist loop of
`reveal_square` are embedded with explicit fuel, returning `none` when the
fuel runs out.
-/

namespace Minesweeper

/-- A 2-D integer grid: a list of rows. -/
abbrev GridT := List (List Nat)

/-- A cell coordinate `(row, col)`. -/
abbrev Cell := Nat × Nat

/-- Entry of a grid at `(r, c)`; out-of-range reads give `0`. -/
def gget (g : GridT) (r c : Nat) : Nat := ((g[r]?.getD [])[c]?.getD 0)

/-- Number of columns of a grid (length of its first row), `shape[1]`. -/
def width (g : GridT) : Nat := (g[0]?.getD []).length

/-- `np.zeros((rows, cols), dtype=int)`. -/
def zeros (rows cols : Nat) : GridT := List.replicate rows (List.replicate cols 0)

/-- Write `v` at column `c` of a single row (no-op out of range). -/
def setRow : List Nat → Nat → Nat → List Nat
  | [], _, _ => []
  | _ :: vs, 0, v => v :: vs
  | w :: vs, c + 1, v => w :: setRow vs c v

/-- `g[r, c] = v` (numpy single-element assignment; no-op out of range). -/
def setCell : GridT → Nat → Nat → Nat → GridT
  | [], _, _, _ => []
  | row :: rest, 0, c, v => setRow row c v :: rest
  | row :: rest, r + 1, c, v => row :: setCell rest r c v

/-- One row of `orInto`: or each entry at column `c₀ + i` with the indicator of
membership of `(r, c₀ + i)` in `S`. -/
def orRow (S : List Cell) (r : Nat) : Nat → List Nat → List Nat
  | _, [] => []
  | c, v :: vs => (v ||| (if (r, c) ∈ S then 1 else 0)) :: orRow S r (c + 1) vs

/-- Rows `r₀, r₀+1, …` of `orInto`. -/
def orRows (S : List Cell) : Nat → GridT → GridT
  | _, [] => []
  | r, row :: rest => orRow S r 0 row :: orRows S (r + 1) rest

/-- `revealed |= update_matrix`, with the 0/1 update matrix represented by the
list `S` of cells it sets: elementwise or of `g` with the indicator of `S`. -/
def orInto (g : GridT) (S : List Cell) : GridT := orRows S 0 g

/-- Sum of all entries, `np.sum`. -/
def gridSum (g : GridT) : Nat := (g.map List.sum).sum

/-- `np.reshape(l, (rows, cols))`: cut a flat list into `rows` rows of `cols`. -/
def reshape : Nat → Nat → List Nat → GridT
  | 0, _, _ => []
  | r + 1, cols, l => l.take cols :: reshape r cols (l.drop cols)

/-- Python 3 `round` on a rational: round half to even (banker's rounding). -/
def pyRound (q : ℚ) : ℤ :=
  let f := Rat.floor q
  if q - f < 1 / 2 then f
  else if (1 : ℚ) / 2 < q - f then f + 1
  else if f % 2 = 0 then f else f + 1

/-- `num_mines = round(total_squares * mine_ratio)` from `initialize_mines`. -/
def numMines (rows cols : Nat) (ratio : ℚ) : Nat :=
  (pyRound (((rows * cols : Nat) : ℚ) * ratio)).toNat

/-- The flat array `[1] * num_mines + [0] * (total_squares - num_mines)`. -/
def baseMines (total m : Nat) : List Nat :=
  List.replicate m 1 ++ List.replicate (total - m) 0

/-- `initialize_mines(rows, cols, mine_ratio)` with the time-seeded
`np.random.shuffle` modelled by the given `shuffle` function: build the flat
0/1 array with exactly `round(rows*cols*mine_ratio)` ones, shuffle it, and
reshape it to `(rows, cols)`. -/
def init_mines (rows cols : Nat) (ratio : ℚ) (shuffle : List Nat → List Nat) : GridT :=
  reshape rows cols (shuffle (baseMines (rows * cols) (numMines rows cols ratio)))

/-- The resampling loop of `Field._initialize`: attempt `idx` samples
`initialize_mines` with the `idx`-th shuffle of the random stream and keeps
resampling while the sampled grid has a mine at `(r, c)`.  Fuel bounds the
number of attempts; `none` means the loop has not finished within the fuel. -/
def findMines (rows cols : Nat) (ratio : ℚ) (stream : Nat → List Nat → List Nat)
    (r c : Nat) : Nat → Nat → Option GridT
  | 0, _ => none
  | fuel + 1, idx =>
    let g := init_mines rows cols ratio (stream idx)
    if gget g r c ≠ 0 then findMines rows cols ratio stream r c fuel (idx + 1)
    else some g

/-- Grid entry read at signed coordinates; negative or out-of-range reads give
`0` (the zero padding of `convolve(..., mode='constant', cval=0)`). -/
def ggetI (g : GridT) (i j : ℤ) : Nat :=
  if 0 ≤ i ∧ 0 ≤ j then gget g i.toNat j.toNat else 0

/-- The nine offsets of the 3×3 kernel `np.ones((3, 3))`. -/
def kernelOffsets : List (ℤ × ℤ) :=
  [(-1, -1), (-1, 0), (-1, 1), (0, -1), (0, 0), (0, 1), (1, -1), (1, 0), (1, 1)]

/-- One entry of the 3×3 sum convolution of `generate_adjacency_matrix`. -/
def adjCount (g : GridT) (r c : Nat) : Nat :=
  (kernelOffsets.map fun d => ggetI g ((r : ℤ) + d.1) ((c : ℤ) + d.2)).sum

/-- `generate_adjacency_matrix(mines)`: 3×3 sum convolution with zero padding. -/
def generate_adjacency_matrix (g : GridT) : GridT :=
  (List.range g.length).map fun r => (List.range (width g)).map fun c => adjCount g r c

/-- Modelled from the spec (§8, first testable property): the count of mined
cells in the 3×3 neighborhood of `(r, c)` clamped to the grid bounds, where the
neighborhood includes the cell itself and out-of-bounds positions contribute
nothing. -/
def mineNeighborCount (g : GridT) (rows cols r c : Nat) : Nat :=
  (kernelOffsets.filter fun d =>
    decide (0 ≤ (r : ℤ) + d.1 ∧ (r : ℤ) + d.1 < rows ∧
            0 ≤ (c : ℤ) + d.2 ∧ (c : ℤ) + d.2 < cols ∧
            gget g ((r : ℤ) + d.1).toNat ((c : ℤ) + d.2).toNat = 1)).length

/-- `np.clip(np.arange(x - 1, x + 2), 0, n - 1)` as a list of naturals. -/
def clipList (n x : Nat) : List Nat :=
  [(x : ℤ) - 1, (x : ℤ), (x : ℤ) + 1].map fun v => (min (max v 0) ((n : ℤ) - 1)).toNat

/-- `set(product(clipped rows, clipped cols))`: the clamped 3×3 neighborhood of
a cell, with duplicates produced by clipping removed. -/
def nbhd (rows cols : Nat) (p : Cell) : List Cell :=
  ((clipList rows p.1).flatMap fun a => (clipList cols p.2).map fun b => (a, b)).dedup

/-- `sum(adjacent_flagged)`: total of the flagged entries over a cell list. -/
def flagSum (flagged : GridT) (ps : List Cell) : Nat :=
  (ps.map fun p => gget flagged p.1 p.2).sum

/-- One run of the `while len(to_check) > 0` loop of `reveal_square`, with the
work list treated as a stack (`list.pop()` takes the most recently pushed
cell, here the head).  `checked` is `already_checked`, `upd` the set of cells
already set in `update_matrix`.  Fuel bounds the number of iterations. -/
def revealLoop (rows cols : Nat) (flagged adj revealed : GridT) :
    Nat → List Cell → List Cell → List Cell → Option (List Cell)
  | 0, _, _, _ => none
  | _ + 1, [], _, upd => some upd
  | fuel + 1, p :: rest, checked, upd =>
    let checked' := p :: checked
    let pushes :=
      if gget adj p.1 p.2 ≤ flagSum flagged (nbhd rows cols p) then
        (nbhd rows cols p).filter fun q =>
          decide (q ∉ checked' ∧ gget revealed q.1 q.2 = 0 ∧ gget flagged q.1 q.2 = 0)
      else []
    revealLoop rows cols flagged adj revealed fuel (pushes ++ rest) checked' (upd.insert p)

/-- The same loop with the work list processed first-in-first-out (a queue):
pushed cells go to the back instead of the front. -/
def revealLoopQ (rows cols : Nat) (flagged adj revealed : GridT) :
    Nat → List Cell → List Cell → List Cell → Option (List Cell)
  | 0, _, _, _ => none
  | _ + 1, [], _, upd => some upd
  | fuel + 1, p :: rest, checked, upd =>
    let checked' := p :: checked
    let pushes :=
      if gget adj p.1 p.2 ≤ flagSum flagged (nbhd rows cols p) then
        (nbhd rows cols p).filter fun q =>
          decide (q ∉ checked' ∧ gget revealed q.1 q.2 = 0 ∧ gget flagged q.1 q.2 = 0)
      else []
    revealLoopQ rows cols flagged adj revealed fuel (rest ++ pushes) checked' (upd.insert p)

/-- `reveal_square(flagged, adjacency_matrix, revealed, row_idx, col_idx,
auto_reveal)`, returning the set of cells the produced `update_matrix` sets to
`1` (the matrix itself is its indicator).  If `auto_reveal` is false and the
picked cell's adjacency count is nonzero only the picked cell is returned;
otherwise the worklist loop runs (stack discipline, as in the source). -/
def reveal_square (flagged adj revealed : GridT) (r c : Nat) (auto : Bool)
    (fuel : Nat) : Option (List Cell) :=
  if auto = false ∧ gget adj r c ≠ 0 then some [(r, c)]
  else revealLoop flagged.length (width flagged) flagged adj revealed fuel [(r, c)] [] [(r, c)]

/-- `reveal_square` with the work list processed as a queue instead. -/
def reveal_squareQ (flagged adj revealed : GridT) (r c : Nat) (auto : Bool)
    (fuel : Nat) : Option (List Cell) :=
  if auto = false ∧ gget adj r c ≠ 0 then some [(r, c)]
  else revealLoopQ flagged.length (width flagged) flagged adj revealed fuel [(r, c)] [] [(r, c)]

/-- The reachability closure of the seed under the flagged-count gating rule:
the seed is reached, and from a reached cell whose clamped 3×3 neighborhood
holds at least as many flags as its adjacency count, every unrevealed and
unflagged neighbor is reached. -/
inductive Reach (rows cols : Nat) (flagged adj revealed : GridT) (seed : Cell) : Cell → Prop
  | seed : Reach rows cols flagged adj revealed seed seed
  | step {p q : Cell} :
      Reach rows cols flagged adj revealed seed p →
      gget adj p.1 p.2 ≤ flagSum flagged (nbhd rows cols p) →
      q ∈ nbhd rows cols p →
      gget revealed q.1 q.2 = 0 →
      gget flagged q.1 q.2 = 0 →
      Reach rows cols flagged adj revealed seed q

/-- The update set `reveal_square` is specified to produce: just the seed when
`auto_reveal` is false and the seed's adjacency count is nonzero, and the
gating-rule reachability closure of the seed otherwise. -/
def RevealSpec (flagged adj revealed : GridT) (r c : Nat) (auto : Bool) (q : Cell) : Prop :=
  if auto = false ∧ gget adj r c ≠ 0 then q = (r, c)
  else Reach flagged.length (width flagged) flagged adj revealed (r, c) q

/-- The `Field` object: dimensions, mine ratio, and the four grids.  `mines`
and `adjacency` are `none` before lazy initialization (`None` in the source). -/
structure Field where
  rows : Nat
  cols : Nat
  mine_ratio : ℚ
  revealed : GridT
  mines : Option GridT
  adjacency : Option GridT
  flagged : GridT
deriving DecidableEq, Repr

/-- `Field(num_rows, num_cols, mine_ratio)`: zeroed `revealed` and `flagged`,
no mines or adjacency yet. -/
def mkField (rows cols : Nat) (ratio : ℚ) : Field :=
  { rows := rows, cols := cols, mine_ratio := ratio,
    revealed := zeros rows cols, mines := none, adjacency := none,
    flagged := zeros rows cols }

/-- The `initialized` property: `_adjacency_matrix is not None and _mines is
not None`. -/
def Field.isInit (f : Field) : Bool := f.adjacency.isSome && f.mines.isSome

/-- `Field._initialize(row_idx, col_idx)`: run the resampling loop and, when it
finishes, store the mines and their adjacency matrix. -/
def Field.lazyInit (f : Field) (stream : Nat → List Nat → List Nat) (r c fuel : Nat) :
    Option Field :=
  (findMines f.rows f.cols f.mine_ratio stream r c fuel 0).map fun m =>
    { f with mines := some m, adjacency := some (generate_adjacency_matrix m) }

/-- `mines * revealed` has a nonzero entry (`np.any` of the elementwise
product of two same-shaped grids). -/
def gridAnyPos (a b : GridT) : Bool :=
  (a.zip b).any fun rp => (rp.1.zip rp.2).any fun q => decide (q.1 * q.2 ≠ 0)

/-- `Field.pick_square(row_idx, col_idx, auto_reveal)`: lazily initialize,
run `reveal_square`, or its update set into `revealed`, and return whether no
revealed cell is a mine, together with the updated field. -/
def Field.pick_square (f : Field) (stream : Nat → List Nat → List Nat)
    (r c : Nat) (auto : Bool) (fuel : Nat) : Option (Bool × Field) :=
  (if f.isInit then some f else f.lazyInit stream r c fuel).bind fun g =>
    (reveal_square g.flagged (g.adjacency.getD []) g.revealed r c auto fuel).map fun upd =>
      let rev' := orInto g.revealed upd
      (!(gridAnyPos (g.mines.getD []) rev'), { g with revealed := rev' })

/-- `Field.toggle_flag_square(row_idx, col_idx)`: flip the flag modulo 2, but
only when the cell is not revealed. -/
def Field.toggle_flag_square (f : Field) (r c : Nat) : Field :=
  if gget f.revealed r c ≠ 0 then f
  else { f with flagged := setCell f.flagged r c ((gget f.flagged r c + 1) % 2) }

/-- The statement `to_return.adjacency_matrix = generate_adjacency_matrix(mines)`
in `Field.from_mine_matrix` assigns to `adjacency_matrix`, which the class
defines as a read-only `@property` (a getter with no setter anywhere in the
class).  In Python, assigning to a property that defines no setter raises
`AttributeError`, modelled here as `none`; the intended target was the plain
attribute `_adjacency_matrix`. -/
def propertySetAdjacency (_f : Field) (_a : GridT) : Option Field := none

/-- `Field.from_mine_matrix(mines)`: build the field from an explicit mine
grid, then store the mines and attempt to assign the computed adjacency matrix
to the read-only `adjacency_matrix` property. -/
def from_mine_matrix (mines : GridT) : Option Field :=
  let rows := mines.length
  let cols := width mines
  let ratio : ℚ := ((gridSum mines : ℚ)) / (((rows * cols : Nat) : ℚ))
  let t : Field := { mkField rows cols ratio with mines := some mines }
  propertySetAdjacency t (generate_adjacency_matrix mines)

/-- The game status kept by `FieldController`. -/
inductive GameStatus where
  | Playing
  | Lost
  | Won
deriving DecidableEq, Repr

/-- `np.all(mined == ~revealed)` on boolean views of two same-shaped grids. -/
def winGridEq (mines revealed : GridT) : Bool :=
  (mines.zip revealed).all fun rp =>
    (rp.1.zip rp.2).all fun q => decide (q.1 ≠ 0) == !decide (q.2 ≠ 0)

/-- `FieldController.evaluate_win_condition`: keep the status when the game is
lost or the field is uninitialized; otherwise move to `Won` exactly when the
negated boolean revealed grid equals the boolean mine grid. -/
def evaluate_win_condition (status : GameStatus) (f : Field) : GameStatus :=
  if status = GameStatus.Lost then status
  else if !f.isInit then status
  else if winGridEq (f.mines.getD []) f.revealed then GameStatus.Won
  else status

/-- A player action handled by `FieldController.handle_action`: the two engine
mutations, each pick carrying its fuel. -/
inductive GameOp where
  | pick (r c : Nat) (auto : Bool) (fuel : Nat)
  | toggle (r c : Nat)

/-- Apply one action to the field. -/
def stepOp (stream : Nat → List Nat → List Nat) (f : Field) : GameOp → Option Field
  | .pick r c auto fuel => (f.pick_square stream r c auto fuel).map Prod.snd
  | .toggle r c => some (f.toggle_flag_square r c)

/-- Apply a sequence of actions to the field. -/
def runOps (stream : Nat → List Nat → List Nat) : Field → List GameOp → Option Field
  | f, [] => some f
  | f, op :: ops => (stepOp stream f op).bind fun f' => runOps stream f' ops

/-- A grid with `rows` rows, each of length `cols`. -/
def rectGrid (g : GridT) (rows cols : Nat) : Prop :=
  g.length = rows ∧ ∀ row ∈ g, row.length = cols

/-- A 0/1 grid. -/
def binGrid (g : GridT) : Prop := ∀ row ∈ g, ∀ v ∈ row, v ≤ 1

instance (g : GridT) (rows cols : Nat) : Decidable (rectGrid g rows cols) := by
  unfold rectGrid; infer_instance

instance (g : GridT) : Decidable (binGrid g) := by
  unfold binGrid; infer_instance

/-- Shape constraint on an optional grid. -/
def optRect : Option GridT → Nat → Nat → Prop
  | none, _, _ => True
  | some g, rows, cols => rectGrid g rows cols

/-- 0/1 constraint on an optional grid. -/
def optBin : Option GridT → Prop
  | none => True
  | some g => binGrid g

instance : ∀ (o : Option GridT) (rows cols : Nat), Decidable (optRect o rows cols)
  | none, _, _ => .isTrue trivial
  | some g, rows, cols => inferInstanceAs (Decidable (rectGrid g rows cols))

instance : ∀ (o : Option GridT), Decidable (optBin o)
  | none => .isTrue trivial
  | some g => inferInstanceAs (Decidable (binGrid g))

/-- Well-formedness of a reachable field state: all grids are `rows × cols`
and the boolean-valued grids hold only `0` and `1`. -/
def Field.WF (f : Field) : Prop :=
  rectGrid f.revealed f.rows f.cols ∧ rectGrid f.flagged f.rows f.cols ∧
  binGrid f.revealed ∧ binGrid f.flagged ∧
  optRect f.mines f.rows f.cols ∧ optBin f.mines ∧
  optRect f.adjacency f.rows f.cols

instance (f : Field) : Decidable f.WF := by
  unfold Field.WF; infer_instance

@[simp]
theorem gget_nil (r c : Nat) : gget [] r c = 0 := by
  simp [gget]

@[simp]
theorem gget_cons_zero (row : List Nat) (g : GridT) (c : Nat) :
    gget (row :: g) 0 c = row[c]?.getD 0 := by
  simp [gget]

@[simp]
theorem gget_cons_succ (row : List Nat) (g : GridT) (r c : Nat) :
    gget (row :: g) (r + 1) c = gget g r c := by
  simp [gget]

theorem rectGrid_row_len {g : GridT} {rows cols r : Nat} (h : rectGrid g rows cols)
    (hr : r < rows) : (g[r]?.getD []).length = cols := by
  obtain ⟨hl, hrow⟩ := h
  have hr' : r < g.length := hl ▸ hr
  have : g[r]? = some g[r] := List.getElem?_eq_getElem hr'
  rw [this]
  exact hrow _ (List.getElem_mem hr')

theorem gget_eq_zero_of_row_ge {g : GridT} {rows cols r : Nat} (h : rectGrid g rows cols)
    (hr : rows ≤ r) (c : Nat) : gget g r c = 0 := by
  obtain ⟨hl, _⟩ := h
  have : g[r]? = none := List.getElem?_eq_none (by omega)
  simp [gget, this]

theorem gget_eq_zero_of_col_ge {g : GridT} {rows cols c : Nat} (h : rectGrid g rows cols)
    (hc : cols ≤ c) (r : Nat) : gget g r c = 0 := by
  by_cases hr : r < rows
  · have hlen := rectGrid_row_len h hr
    have : (g[r]?.getD [])[c]? = none := List.getElem?_eq_none (by omega)
    simp [gget, this]
  · exact gget_eq_zero_of_row_ge h (by omega) c

theorem binGrid_gget_le_one {g : GridT} (h : binGrid g) (r c : Nat) : gget g r c ≤ 1 := by
  unfold gget
  cases hrow : g[r]? with
  | none => simp
  | some row =>
    simp only [Option.getD_some]
    cases hv : row[c]? with
    | none => simp
    | some v =>
      simp only [Option.getD_some]
      exact h row (List.getElem?_mem hrow) v (List.getElem?_mem hv)

theorem lor_one_ne_zero (x : Nat) : x ||| 1 ≠ 0 := by
  intro h
  have := congrArg (fun n => n.testBit 0) h
  simp [Nat.testBit_or] at this

theorem lor_ne_zero_left {x : Nat} (h : x ≠ 0) (y : Nat) : x ||| y ≠ 0 := by
  intro h0
  have hb : ∀ i, x.testBit i = false := by
    intro i
    have := congrArg (fun n => n.testBit i) h0
    simp [Nat.testBit_or] at this
    exact this.1
  exact h (Nat.eq_of_testBit_eq fun i => by simp [hb i])

theorem orRow_getD (S : List Cell) (r : Nat) :
    ∀ (row : List Nat) (c0 c : Nat),
      (orRow S r c0 row)[c]?.getD 0 =
        row[c]?.getD 0 ||| (if c < row.length ∧ (r, c0 + c) ∈ S then 1 else 0) := by
  intro row
  induction row with
  | nil => intro c0 c; simp [orRow]
  | cons v vs ih =>
    intro c0 c
    cases c with
    | zero => simp [orRow]
    | succ c =>
      simp only [orRow, List.getElem?_cons_succ, List.length_cons]
      rw [ih (c0 + 1) c]
      congr 1
      refine if_congr ?_ rfl rfl
      constructor
      · rintro ⟨h1, h2⟩
        rw [show c0 + 1 + c = c0 + (c + 1) by omega] at h2
        exact ⟨by omega, h2⟩
      · rintro ⟨h1, h2⟩
        rw [show c0 + (c + 1) = c0 + 1 + c by omega] at h2
        exact ⟨by omega, h2⟩

theorem orRows_gget (S : List Cell) :
    ∀ (g : GridT) (r0 r c : Nat),
      gget (orRows S r0 g) r c =
        gget g r c |||
          (if r < g.length ∧ c < (g[r]?.getD []).length ∧ (r0 + r, c) ∈ S then 1 else 0) := by
  intro g
  induction g with
  | nil => intro r0 r c; simp [orRows]
  | cons row rest ih =>
    intro r0 r c
    cases r with
    | zero =>
      simp only [orRows, gget_cons_zero, List.getElem?_cons_zero, Option.getD_some,
        List.length_cons]
      rw [orRow_getD S r0 row 0 c]
      congr 1
      refine if_congr ?_ rfl rfl
      constructor
      · rintro ⟨h1, h2⟩
        exact ⟨Nat.succ_pos _, h1, by simpa using h2⟩
      · rintro ⟨_, h1, h2⟩
        exact ⟨h1, by simpa using h2⟩
    | succ r =>
      simp only [orRows, gget_cons_succ, List.getElem?_cons_succ, List.length_cons]
      rw [ih (r0 + 1) r c]
      congr 1
      refine if_congr ?_ rfl rfl
      constructor
      · rintro ⟨h1, h2, h3⟩
        rw [show r0 + 1 + r = r0 + (r + 1) by omega] at h3
        exact ⟨by omega, h2, h3⟩
      · rintro ⟨h1, h2, h3⟩
        rw [show r0 + (r + 1) = r0 + 1 + r by omega] at h3
        exact ⟨by omega, h2, h3⟩

theorem orInto_gget (g : GridT) (S : List Cell) (r c : Nat) :
    gget (orInto g S) r c =
      gget g r c |||
        (if r < g.length ∧ c < (g[r]?.getD []).length ∧ (r, c) ∈ S then 1 else 0) := by
  have := orRows_gget S g 0 r c
  simpa [orInto] using this

theorem orInto_gget_ne_zero {g : GridT} {r c : Nat} (h : gget g r c ≠ 0) (S : List Cell) :
    gget (orInto g S) r c ≠ 0 := by
  rw [orInto_gget]
  exact lor_ne_zero_left h _

theorem orInto_gget_mem {g : GridT} {S : List Cell} {r c : Nat}
    (hr : r < g.length) (hc : c < (g[r]?.getD []).length) (hm : (r, c) ∈ S) :
    gget (orInto g S) r c ≠ 0 := by
  rw [orInto_gget]
  simp only [hr, hc, hm, and_self, if_true]
  exact lor_one_ne_zero _

theorem orInto_gget_zero {g : GridT} {S : List Cell} {r c : Nat}
    (h : gget (orInto g S) r c = 0) : gget g r c = 0 := by
  rw [orInto_gget] at h
  rcases Nat.eq_zero_or_pos (gget g r c) with h' | h'
  · exact h'
  · exact absurd h (lor_ne_zero_left (by omega) _)

theorem orRow_length (S : List Cell) (r : Nat) :
    ∀ (row : List Nat) (c0 : Nat), (orRow S r c0 row).length = row.length := by
  intro row
  induction row with
  | nil => intro c0; rfl
  | cons v vs ih => intro c0; simp [orRow, ih]

theorem orRows_length (S : List Cell) :
    ∀ (g : GridT) (r0 : Nat), (orRows S r0 g).length = g.length := by
  intro g
  induction g with
  | nil => intro r0; rfl
  | cons row rest ih => intro r0; simp [orRows, ih]

theorem orRows_mem_len {cols : Nat} (S : List Cell) :
    ∀ (g : GridT) (r0 : Nat), (∀ row ∈ g, row.length = cols) →
      ∀ row ∈ orRows S r0 g, row.length = cols := by
  intro g
  induction g with
  | nil => intro r0 _ row hrow; simp [orRows] at hrow
  | cons row rest ih =>
    intro r0 h x hx
    simp only [orRows, List.mem_cons] at hx
    rcases hx with hx | hx
    · subst hx
      rw [orRow_length]
      exact h row (List.mem_cons_self _ _)
    · exact ih (r0 + 1) (fun y hy => h y (List.mem_cons_of_mem _ hy)) x hx

theorem orInto_rect {g : GridT} {rows cols : Nat} (h : rectGrid g rows cols) (S : List Cell) :
    rectGrid (orInto g S) rows cols := by
  obtain ⟨hl, hrow⟩ := h
  exact ⟨by rw [orInto, orRows_length, hl], orRows_mem_len S g 0 hrow⟩

theorem orRow_eq_self (S : List Cell) (r : Nat) :
    ∀ (row : List Nat) (c0 : Nat),
      (∀ c < row.length, (r, c0 + c) ∈ S → row[c]?.getD 0 ||| 1 = row[c]?.getD 0) →
      orRow S r c0 row = row := by
  intro row
  induction row with
  | nil => intro c0 _; rfl
  | cons v vs ih =>
    intro c0 h
    simp only [orRow]
    congr 1
    · by_cases hm : (r, c0) ∈ S
      · have := h 0 (by simp) (by simpa using hm)
        simpa [hm] using this
      · simp [hm]
    · refine ih (c0 + 1) fun c hc hmem => ?_
      have := h (c + 1) (by simpa using Nat.succ_lt_succ hc) (by
        rwa [show c0 + (c + 1) = c0 + 1 + c by omega])
      simpa using this

theorem orRows_eq_self (S : List Cell) :
    ∀ (g : GridT) (r0 : Nat),
      (∀ r c, r < g.length → c < (g[r]?.getD []).length → (r0 + r, c) ∈ S →
        gget g r c ||| 1 = gget g r c) →
      orRows S r0 g = g := by
  intro g
  induction g with
  | nil => intro r0 _; rfl
  | cons row rest ih =>
    intro r0 h
    simp only [orRows]
    congr 1
    · refine orRow_eq_self S r0 row 0 fun c hc hmem => ?_
      have := h 0 c (by simp) (by simpa using hc) (by simpa using hmem)
      simpa using this
    · refine ih (r0 + 1) fun r c hr hc hmem => ?_
      have := h (r + 1) c (by simpa using Nat.succ_lt_succ hr) (by simpa using hc) (by
        rwa [show r0 + (r + 1) = r0 + 1 + r by omega])
      simpa using this

theorem orInto_eq_self {g : GridT} {S : List Cell}
    (h : ∀ r c, r < g.length → c < (g[r]?.getD []).length → (r, c) ∈ S →
      gget g r c ||| 1 = gget g r c) :
    orInto g S = g := by
  refine orRows_eq_self S g 0 fun r c hr hc hm => h r c hr hc (by simpa using hm)

theorem zipAny_iff :
    ∀ (u v : List Nat), u.length = v.length →
      (((u.zip v).any fun q => decide (q.1 * q.2 ≠ 0)) = true ↔
        ∃ c : Nat, u[c]?.getD 0 ≠ 0 ∧ v[c]?.getD 0 ≠ 0) := by
  intro u
  induction u with
  | nil =>
    intro v h
    simp
  | cons a u' ih =>
    intro v h
    cases v with
    | nil => simp at h
    | cons b v' =>
      simp only [List.length_cons, Nat.succ.injEq] at h
      simp only [List.zip_cons_cons, List.any_cons, Bool.or_eq_true, decide_eq_true_iff]
      rw [ih v' h]
      constructor
      · rintro (hab | ⟨c, hc⟩)
        · exact ⟨0, by simpa [Nat.mul_ne_zero_iff] using hab⟩
        · exact ⟨c + 1, by simpa using hc⟩
      · rintro ⟨c, hc⟩
        cases c with
        | zero =>
          left
          simp only [List.getElem?_cons_zero, Option.getD_some] at hc
          exact Nat.mul_ne_zero hc.1 hc.2
        | succ c =>
          right
          exact ⟨c, by simpa using hc⟩

theorem gridAnyPos_iff' :
    ∀ (a b : GridT), a.length = b.length →
      (∀ i : Nat, (a[i]?.getD []).length = (b[i]?.getD []).length) →
      (gridAnyPos a b = true ↔ ∃ r c : Nat, gget a r c ≠ 0 ∧ gget b r c ≠ 0) := by
  intro a
  induction a with
  | nil =>
    intro b h _
    simp [gridAnyPos]
  | cons ra a' ih =>
    intro b hlen hrows
    cases b with
    | nil => simp at hlen
    | cons rb b' =>
      simp only [List.length_cons, Nat.succ.injEq] at hlen
      have hrow0 : ra.length = rb.length := by simpa using hrows 0
      have hrows' : ∀ i : Nat, (a'[i]?.getD []).length = (b'[i]?.getD []).length := by
        intro i
        simpa using hrows (i + 1)
      simp only [gridAnyPos, List.zip_cons_cons, List.any_cons, Bool.or_eq_true]
      rw [show ((a'.zip b').any fun rp =>
            (rp.1.zip rp.2).any fun q => decide (q.1 * q.2 ≠ 0)) = gridAnyPos a' b' from rfl]
      rw [ih b' hlen hrows', zipAny_iff ra rb hrow0]
      constructor
      · rintro (⟨c, hc⟩ | ⟨r, c, hc⟩)
        · exact ⟨0, c, by simpa using hc⟩
        · exact ⟨r + 1, c, by simpa using hc⟩
      · rintro ⟨r, c, hc⟩
        cases r with
        | zero => exact Or.inl ⟨c, by simpa using hc⟩
        | succ r => exact Or.inr ⟨r, c, by simpa using hc⟩

theorem gridAnyPos_iff {a b : GridT} {rows cols : Nat}
    (ha : rectGrid a rows cols) (hb : rectGrid b rows cols) :
    gridAnyPos a b = true ↔ ∃ r c : Nat, gget a r c ≠ 0 ∧ gget b r c ≠ 0 := by
  refine gridAnyPos_iff' a b (ha.1.trans hb.1.symm) fun i => ?_
  by_cases hi : i < rows
  · rw [rectGrid_row_len ha hi, rectGrid_row_len hb hi]
  · have h1 : a[i]? = none := List.getElem?_eq_none (by rw [ha.1]; omega)
    have h2 : b[i]? = none := List.getElem?_eq_none (by rw [hb.1]; omega)
    simp [h1, h2]

theorem boolMineRevEq_iff (a b : Nat) :
    ((decide (a ≠ 0) == !decide (b ≠ 0)) = true) ↔ (a ≠ 0 ↔ b = 0) := by
  by_cases ha : a = 0 <;> by_cases hb : b = 0 <;> simp [ha, hb]

theorem zipAll_iff :
    ∀ (u v : List Nat), u.length = v.length →
      (((u.zip v).all fun q => decide (q.1 ≠ 0) == !decide (q.2 ≠ 0)) = true ↔
        ∀ c < u.length, (u[c]?.getD 0 ≠ 0 ↔ v[c]?.getD 0 = 0)) := by
  intro u
  induction u with
  | nil =>
    intro v h
    simp
  | cons a u' ih =>
    intro v h
    cases v with
    | nil => simp at h
    | cons b v' =>
      simp only [List.length_cons, Nat.succ.injEq] at h
      simp only [List.zip_cons_cons, List.all_cons, Bool.and_eq_true]
      rw [ih v' h, boolMineRevEq_iff a b]
      constructor
      · rintro ⟨hab, hrest⟩ c hc
        cases c with
        | zero => simpa using hab
        | succ c => exact (by simpa using hrest c (by simpa using hc))
      · intro hall
        refine ⟨by simpa using hall 0 (Nat.succ_pos _), fun c hc => ?_⟩
        simpa using hall (c + 1) (by simpa using Nat.succ_lt_succ hc)

theorem winGridEq_iff' :
    ∀ (a b : GridT), a.length = b.length →
      (∀ i : Nat, (a[i]?.getD []).length = (b[i]?.getD []).length) →
      (winGridEq a b = true ↔
        ∀ r < a.length, ∀ c < (a[r]?.getD []).length,
          (gget a r c ≠ 0 ↔ gget b r c = 0)) := by
  intro a
  induction a with
  | nil =>
    intro b h _
    simp [winGridEq]
  | cons ra a' ih =>
    intro b hlen hrows
    cases b with
    | nil => simp at hlen
    | cons rb b' =>
      simp only [List.length_cons, Nat.succ.injEq] at hlen
      have hrow0 : ra.length = rb.length := by simpa using hrows 0
      have hrows' : ∀ i : Nat, (a'[i]?.getD []).length = (b'[i]?.getD []).length := by
        intro i
        simpa using hrows (i + 1)
      simp only [winGridEq, List.zip_cons_cons, List.all_cons, Bool.and_eq_true]
      rw [show ((a'.zip b').all fun rp =>
            (rp.1.zip rp.2).all fun q => decide (q.1 ≠ 0) == !decide (q.2 ≠ 0)) =
              winGridEq a' b' from rfl]
      rw [ih b' hlen hrows', zipAll_iff ra rb hrow0]
      constructor
      · rintro ⟨hhead, hrest⟩ r hr c
        cases r with
        | zero => simpa using fun hc => hhead c hc
        | succ r =>
          intro hc
          have := hrest r (by simpa using hr) c (by simpa using hc)
          simpa using this
      · intro hall
        constructor
        · intro c hc
          simpa using hall 0 (Nat.succ_pos _) c (by simpa using hc)
        · intro r hr c hc
          have := hall (r + 1) (by simpa using Nat.succ_lt_succ hr) c (by simpa using hc)
          simpa using this

theorem winGridEq_iff {a b : GridT} {rows cols : Nat}
    (ha : rectGrid a rows cols) (hb : rectGrid b rows cols) :
    winGridEq a b = true ↔
      ∀ r < rows, ∀ c < cols, (gget a r c ≠ 0 ↔ gget b r c = 0) := by
  have hlens : ∀ i : Nat, (a[i]?.getD []).length = (b[i]?.getD []).length := by
    intro i
    by_cases hi : i < rows
    · rw [rectGrid_row_len ha hi, rectGrid_row_len hb hi]
    · have h1 : a[i]? = none := List.getElem?_eq_none (by rw [ha.1]; omega)
      have h2 : b[i]? = none := List.getElem?_eq_none (by rw [hb.1]; omega)
      simp [h1, h2]
  rw [winGridEq_iff' a b (ha.1.trans hb.1.symm) hlens, ha.1]
  constructor
  · intro h r hr c hc
    exact h r hr c (by rw [rectGrid_row_len ha hr]; exact hc)
  · intro h r hr c hc
    exact h r hr c (by rw [rectGrid_row_len ha hr] at hc; exact hc)

theorem setRow_getD_self :
    ∀ (row : List Nat) (c v : Nat), c < row.length →
      (setRow row c v)[c]?.getD 0 = v := by
  intro row
  induction row with
  | nil => intro c v h; simp at h
  | cons w vs ih =>
    intro c v h
    cases c with
    | zero => simp [setRow]
    | succ c =>
      simp only [setRow, List.getElem?_cons_succ]
      exact ih c v (by simpa using h)

theorem setRow_getD_ne :
    ∀ (row : List Nat) (c v c' : Nat), c' ≠ c →
      (setRow row c v)[c']?.getD 0 = row[c']?.getD 0 := by
  intro row
  induction row with
  | nil => intro c v c' _; cases c <;> rfl
  | cons w vs ih =>
    intro c v c' hne
    cases c with
    | zero =>
      cases c' with
      | zero => exact absurd rfl hne
      | succ c' => simp [setRow]
    | succ c =>
      cases c' with
      | zero => simp [setRow]
      | succ c' =>
        simp only [setRow, List.getElem?_cons_succ]
        exact ih c v c' (by omega)

theorem setCell_gget_self :
    ∀ (g : GridT) (r c v : Nat), r < g.length → c < (g[r]?.getD []).length →
      gget (setCell g r c v) r c = v := by
  intro g
  induction g with
  | nil => intro r c v h _; simp at h
  | cons row rest ih =>
    intro r c v hr hc
    cases r with
    | zero =>
      simp only [setCell, gget_cons_zero]
      exact setRow_getD_self row c v (by simpa using hc)
    | succ r =>
      simp only [setCell, gget_cons_succ]
      exact ih r c v (by simpa using hr) (by simpa using hc)

theorem setCell_gget_ne :
    ∀ (g : GridT) (r c v r' c' : Nat), (r' ≠ r ∨ c' ≠ c) →
      gget (setCell g r c v) r' c' = gget g r' c' := by
  intro g
  induction g with
  | nil => intro r c v r' c' _; cases r <;> rfl
  | cons row rest ih =>
    intro r c v r' c' hne
    cases r with
    | zero =>
      cases r' with
      | zero =>
        rcases hne with hne | hne
        · exact absurd rfl hne
        · simp only [setCell, gget_cons_zero]
          exact setRow_getD_ne row c v c' hne
      | succ r' => simp [setCell]
    | succ r =>
      cases r' with
      | zero => simp [setCell]
      | succ r' =>
        simp only [setCell, gget_cons_succ]
        rcases hne with hne | hne
        · exact ih r c v r' c' (Or.inl (by omega))
        · exact ih r c v r' c' (Or.inr hne)

theorem setRow_self :
    ∀ (row : List Nat) (c : Nat), setRow row c (row[c]?.getD 0) = row := by
  intro row
  induction row with
  | nil => intro c; rfl
  | cons w vs ih =>
    intro c
    cases c with
    | zero => simp [setRow]
    | succ c =>
      simp only [setRow, List.getElem?_cons_succ]
      rw [ih c]

theorem setCell_self :
    ∀ (g : GridT) (r c : Nat), setCell g r c (gget g r c) = g := by
  intro g
  induction g with
  | nil => intro r c; rfl
  | cons row rest ih =>
    intro r c
    cases r with
    | zero =>
      simp only [setCell, gget_cons_zero]
      rw [setRow_self row c]
    | succ r =>
      simp only [setCell, gget_cons_succ]
      rw [ih r c]

theorem setRow_setRow :
    ∀ (row : List Nat) (c v w : Nat), setRow (setRow row c v) c w = setRow row c w := by
  intro row
  induction row with
  | nil => intro c v w; rfl
  | cons x vs ih =>
    intro c v w
    cases c with
    | zero => simp [setRow]
    | succ c => simp [setRow, ih c v w]

theorem setCell_setCell :
    ∀ (g : GridT) (r c v w : Nat), setCell (setCell g r c v) r c w = setCell g r c w := by
  intro g
  induction g with
  | nil => intro r c v w; rfl
  | cons row rest ih =>
    intro r c v w
    cases r with
    | zero => simp [setCell, setRow_setRow]
    | succ r => simp [setCell, ih r c v w]

section RevealLemmas

variable {rows cols : Nat} {flagged adj revealed : GridT}

theorem revealLoop_reach (seed : Cell) :
    ∀ (fuel : Nat) (toCheck checked upd res : List Cell),
      revealLoop rows cols flagged adj revealed fuel toCheck checked upd = some res →
      (∀ q ∈ toCheck, Reach rows cols flagged adj revealed seed q) →
      (∀ q ∈ upd, Reach rows cols flagged adj revealed seed q) →
      ∀ q ∈ res, Reach rows cols flagged adj revealed seed q := by
  intro fuel
  induction fuel with
  | zero =>
    intro toCheck checked upd res h
    simp [revealLoop] at h
  | succ fuel ih =>
    intro toCheck checked upd res h htc hupd
    cases toCheck with
    | nil =>
      simp only [revealLoop, Option.some.injEq] at h
      subst h
      exact hupd
    | cons p rest =>
      have hp : Reach rows cols flagged adj revealed seed p := htc p (List.mem_cons_self _ _)
      by_cases hg : gget adj p.1 p.2 ≤ flagSum flagged (nbhd rows cols p)
      · simp only [revealLoop, if_pos hg] at h
        refine ih _ _ _ _ h ?_ ?_
        · intro q hq
          rcases List.mem_append.mp hq with hq | hq
          · rw [List.mem_filter] at hq
            obtain ⟨hqn, hcond⟩ := hq
            have hcond' := of_decide_eq_true hcond
            exact Reach.step hp hg hqn hcond'.2.1 hcond'.2.2
          · exact htc q (List.mem_cons_of_mem _ hq)
        · intro q hq
          rcases List.mem_insert_iff.mp hq with hq | hq
          · subst hq; exact hp
          · exact hupd q hq
      · simp only [revealLoop, if_neg hg, List.nil_append] at h
        refine ih _ _ _ _ h ?_ ?_
        · intro q hq
          exact htc q (List.mem_cons_of_mem _ hq)
        · intro q hq
          rcases List.mem_insert_iff.mp hq with hq | hq
          · subst hq; exact hp
          · exact hupd q hq

theorem revealLoop_mem_res :
    ∀ (fuel : Nat) (toCheck checked upd res : List Cell),
      revealLoop rows cols flagged adj revealed fuel toCheck checked upd = some res →
      ∀ q, (q ∈ toCheck ∨ q ∈ upd) → q ∈ res := by
  intro fuel
  induction fuel with
  | zero =>
    intro toCheck checked upd res h
    simp [revealLoop] at h
  | succ fuel ih =>
    intro toCheck checked upd res h q hq
    cases toCheck with
    | nil =>
      simp only [revealLoop, Option.some.injEq] at h
      subst h
      rcases hq with hq | hq
      · simp at hq
      · exact hq
    | cons p rest =>
      have step :
          ∀ pushes,
            revealLoop rows cols flagged adj revealed fuel (pushes ++ rest) (p :: checked)
              (upd.insert p) = some res → q ∈ res := by
        intro pushes h'
        rcases hq with hq | hq
        · rcases List.mem_cons.mp hq with hq | hq
          · subst hq
            exact ih _ _ _ _ h' q (Or.inr (List.mem_insert_self _ _))
          · exact ih _ _ _ _ h' q (Or.inl (List.mem_append.mpr (Or.inr hq)))
        · exact ih _ _ _ _ h' q (Or.inr (List.mem_insert_iff.mpr (Or.inr hq)))
      by_cases hg : gget adj p.1 p.2 ≤ flagSum flagged (nbhd rows cols p)
      · simp only [revealLoop, if_pos hg] at h
        exact step _ h
      · simp only [revealLoop, if_neg hg] at h
        exact step [] (by simpa using h)

theorem revealLoop_closed :
    ∀ (fuel : Nat) (toCheck checked upd res : List Cell),
      revealLoop rows cols flagged adj revealed fuel toCheck checked upd = some res →
      (∀ q ∈ checked, q ∈ upd) →
      (∀ q ∈ upd, q ∈ checked ∨ q ∈ toCheck) →
      (∀ x ∈ checked, gget adj x.1 x.2 ≤ flagSum flagged (nbhd rows cols x) →
        ∀ q ∈ nbhd rows cols x, gget revealed q.1 q.2 = 0 → gget flagged q.1 q.2 = 0 →
          (q ∈ checked ∨ q ∈ toCheck)) →
      ∀ x ∈ res, gget adj x.1 x.2 ≤ flagSum flagged (nbhd rows cols x) →
        ∀ q ∈ nbhd rows cols x, gget revealed q.1 q.2 = 0 → gget flagged q.1 q.2 = 0 →
          q ∈ res := by
  intro fuel
  induction fuel with
  | zero =>
    intro toCheck checked upd res h
    simp [revealLoop] at h
  | succ fuel ih =>
    intro toCheck checked upd res h inv1 inv2 inv3
    cases toCheck with
    | nil =>
      simp only [revealLoop, Option.some.injEq] at h
      subst h
      intro x hx hgx q hq hrev hfl
      have hxc : x ∈ checked := by
        rcases inv2 x hx with h' | h'
        · exact h'
        · simp at h'
      rcases inv3 x hxc hgx q hq hrev hfl with h' | h'
      · exact inv1 q h'
      · simp at h'
    | cons p rest =>
      by_cases hg : gget adj p.1 p.2 ≤ flagSum flagged (nbhd rows cols p)
      · simp only [revealLoop, if_pos hg] at h
        refine ih _ _ _ _ h ?_ ?_ ?_
        · intro q hq
          rcases List.mem_cons.mp hq with hq | hq
          · subst hq; exact List.mem_insert_self _ _
          · exact List.mem_insert_iff.mpr (Or.inr (inv1 q hq))
        · intro q hq
          rcases List.mem_insert_iff.mp hq with hq | hq
          · exact Or.inl (hq ▸ List.mem_cons_self _ _)
          · rcases inv2 q hq with h' | h'
            · exact Or.inl (List.mem_cons_of_mem _ h')
            · rcases List.mem_cons.mp h' with h' | h'
              · exact Or.inl (h' ▸ List.mem_cons_self _ _)
              · exact Or.inr (List.mem_append.mpr (Or.inr h'))
        · intro x hx hgx q hq hrev hfl
          rcases List.mem_cons.mp hx with hx | hx
          · subst hx
            by_cases hqc : q ∈ x :: checked
            · exact Or.inl hqc
            · refine Or.inr (List.mem_append.mpr (Or.inl ?_))
              rw [List.mem_filter]
              exact ⟨hq, decide_eq_true (by exact ⟨hqc, hrev, hfl⟩)⟩
          · rcases inv3 x hx hgx q hq hrev hfl with h' | h'
            · exact Or.inl (List.mem_cons_of_mem _ h')
            · rcases List.mem_cons.mp h' with h' | h'
              · exact Or.inl (h' ▸ List.mem_cons_self _ _)
              · exact Or.inr (List.mem_append.mpr (Or.inr h'))
      · simp only [revealLoop, if_neg hg, List.nil_append] at h
        refine ih _ _ _ _ h ?_ ?_ ?_
        · intro q hq
          rcases List.mem_cons.mp hq with hq | hq
          · subst hq; exact List.mem_insert_self _ _
          · exact List.mem_insert_iff.mpr (Or.inr (inv1 q hq))
        · intro q hq
          rcases List.mem_insert_iff.mp hq with hq | hq
          · exact Or.inl (hq ▸ List.mem_cons_self _ _)
          · rcases inv2 q hq with h' | h'
            · exact Or.inl (List.mem_cons_of_mem _ h')
            · rcases List.mem_cons.mp h' with h' | h'
              · exact Or.inl (h' ▸ List.mem_cons_self _ _)
              · exact Or.inr h'
        · intro x hx hgx q hq hrev hfl
          rcases List.mem_cons.mp hx with hx | hx
          · subst hx
            exact absurd hgx hg
          · rcases inv3 x hx hgx q hq hrev hfl with h' | h'
            · exact Or.inl (List.mem_cons_of_mem _ h')
            · rcases List.mem_cons.mp h' with h' | h'
              · exact Or.inl (h' ▸ List.mem_cons_self _ _)
              · exact Or.inr h'

theorem revealLoop_run_iff {sr sc : Nat} {fuel : Nat} {res : List Cell}
    (h : revealLoop rows cols flagged adj revealed fuel [(sr, sc)] [] [(sr, sc)] = some res) :
    ∀ q, q ∈ res ↔ Reach rows cols flagged adj revealed (sr, sc) q := by
  intro q
  constructor
  · intro hq
    refine revealLoop_reach (sr, sc) fuel _ _ _ _ h ?_ ?_ q hq
    · intro x hx
      rcases List.mem_singleton.mp hx with rfl
      exact Reach.seed
    · intro x hx
      rcases List.mem_singleton.mp hx with rfl
      exact Reach.seed
  · intro hq
    induction hq with
    | seed =>
      exact revealLoop_mem_res fuel _ _ _ _ h _ (Or.inl (List.mem_singleton.mpr rfl))
    | step hp hgp hn hrev hfl ihp =>
      refine revealLoop_closed fuel _ _ _ _ h ?_ ?_ ?_ _ ihp hgp _ hn hrev hfl
      · intro x hx
        simp at hx
      · intro x hx
        exact Or.inr hx
      · intro x hx
        simp at hx

theorem reveal_square_mem {r c : Nat} {auto : Bool} {fuel : Nat} {res : List Cell}
    (h : reveal_square flagged adj revealed r c auto fuel = some res) :
    ∀ q, q ∈ res ↔ RevealSpec flagged adj revealed r c auto q := by
  unfold reveal_square at h
  unfold RevealSpec
  intro q
  by_cases hcond : auto = false ∧ gget adj r c ≠ 0
  · rw [if_pos hcond] at h
    rw [if_pos hcond]
    injection h with h
    subst h
    simp
  · rw [if_neg hcond] at h
    rw [if_neg hcond]
    exact revealLoop_run_iff h q

end RevealLemmas

section RevealQLemmas

variable {rows cols : Nat} {flagged adj revealed : GridT}

theorem revealLoopQ_reach (seed : Cell) :
    ∀ (fuel : Nat) (toCheck checked upd res : List Cell),
      revealLoopQ rows cols flagged adj revealed fuel toCheck checked upd = some res →
      (∀ q ∈ toCheck, Reach rows cols flagged adj revealed seed q) →
      (∀ q ∈ upd, Reach rows cols flagged adj revealed seed q) →
      ∀ q ∈ res, Reach rows cols flagged adj revealed seed q := by
  intro fuel
  induction fuel with
  | zero =>
    intro toCheck checked upd res h
    simp [revealLoopQ] at h
  | succ fuel ih =>
    intro toCheck checked upd res h htc hupd
    cases toCheck with
    | nil =>
      simp only [revealLoopQ, Option.some.injEq] at h
      subst h
      exact hupd
    | cons p rest =>
      have hp : Reach rows cols flagged adj revealed seed p := htc p (List.mem_cons_self _ _)
      by_cases hg : gget adj p.1 p.2 ≤ flagSum flagged (nbhd rows cols p)
      · simp only [revealLoopQ, if_pos hg] at h
        refine ih _ _ _ _ h ?_ ?_
        · intro q hq
          rcases List.mem_append.mp hq with hq | hq
          · exact htc q (List.mem_cons_of_mem _ hq)
          · rw [List.mem_filter] at hq
            obtain ⟨hqn, hcond⟩ := hq
            have hcond' := of_decide_eq_true hcond
            exact Reach.step hp hg hqn hcond'.2.1 hcond'.2.2
        · intro q hq
          rcases List.mem_insert_iff.mp hq with hq | hq
          · subst hq; exact hp
          · exact hupd q hq
      · simp only [revealLoopQ, if_neg hg, List.append_nil] at h
        refine ih _ _ _ _ h ?_ ?_
        · intro q hq
          exact htc q (List.mem_cons_of_mem _ hq)
        · intro q hq
          rcases List.mem_insert_iff.mp hq with hq | hq
          · subst hq; exact hp
          · exact hupd q hq

theorem revealLoopQ_mem_res :
    ∀ (fuel : Nat) (toCheck checked upd res : List Cell),
      revealLoopQ rows cols flagged adj revealed fuel toCheck checked upd = some res →
      ∀ q, (q ∈ toCheck ∨ q ∈ upd) → q ∈ res := by
  intro fuel
  induction fuel with
  | zero =>
    intro toCheck checked upd res h
    simp [revealLoopQ] at h
  | succ fuel ih =>
    intro toCheck checked upd res h q hq
    cases toCheck with
    | nil =>
      simp only [revealLoopQ, Option.some.injEq] at h
      subst h
      rcases hq with hq | hq
      · simp at hq
      · exact hq
    | cons p rest =>
      have step :
          ∀ pushes,
            revealLoopQ rows cols flagged adj revealed fuel (rest ++ pushes) (p :: checked)
              (upd.insert p) = some res → q ∈ res := by
        intro pushes h'
        rcases hq with hq | hq
        · rcases List.mem_cons.mp hq with hq | hq
          · subst hq
            exact ih _ _ _ _ h' q (Or.inr (List.mem_insert_self _ _))
          · exact ih _ _ _ _ h' q (Or.inl (List.mem_append.mpr (Or.inl hq)))
        · exact ih _ _ _ _ h' q (Or.inr (List.mem_insert_iff.mpr (Or.inr hq)))
      by_cases hg : gget adj p.1 p.2 ≤ flagSum flagged (nbhd rows cols p)
      · simp only [revealLoopQ, if_pos hg] at h
        exact step _ h
      · simp only [revealLoopQ, if_neg hg] at h
        exact step [] (by simpa using h)

theorem revealLoopQ_closed :
    ∀ (fuel : Nat) (toCheck checked upd res : List Cell),
      revealLoopQ rows cols flagged adj revealed fuel toCheck checked upd = some res →
      (∀ q ∈ checked, q ∈ upd) →
      (∀ q ∈ upd, q ∈ checked ∨ q ∈ toCheck) →
      (∀ x ∈ checked, gget adj x.1 x.2 ≤ flagSum flagged (nbhd rows cols x) →
        ∀ q ∈ nbhd rows cols x, gget revealed q.1 q.2 = 0 → gget flagged q.1 q.2 = 0 →
          (q ∈ checked ∨ q ∈ toCheck)) →
      ∀ x ∈ res, gget adj x.1 x.2 ≤ flagSum flagged (nbhd rows cols x) →
        ∀ q ∈ nbhd rows cols x, gget revealed q.1 q.2 = 0 → gget flagged q.1 q.2 = 0 →
          q ∈ res := by
  intro fuel
  induction fuel with
  | zero =>
    intro toCheck checked upd res h
    simp [revealLoopQ] at h
  | succ fuel ih =>
    intro toCheck checked upd res h inv1 inv2 inv3
    cases toCheck with
    | nil =>
      simp only [revealLoopQ, Option.some.injEq] at h
      subst h
      intro x hx hgx q hq hrev hfl
      have hxc : x ∈ checked := by
        rcases inv2 x hx with h' | h'
        · exact h'
        · simp at h'
      rcases inv3 x hxc hgx q hq hrev hfl with h' | h'
      · exact inv1 q h'
      · simp at h'
    | cons p rest =>
      by_cases hg : gget adj p.1 p.2 ≤ flagSum flagged (nbhd rows cols p)
      · simp only [revealLoopQ, if_pos hg] at h
        refine ih _ _ _ _ h ?_ ?_ ?_
        · intro q hq
          rcases List.mem_cons.mp hq with hq | hq
          · subst hq; exact List.mem_insert_self _ _
          · exact List.mem_insert_iff.mpr (Or.inr (inv1 q hq))
        · intro q hq
          rcases List.mem_insert_iff.mp hq with hq | hq
          · exact Or.inl (hq ▸ List.mem_cons_self _ _)
          · rcases inv2 q hq with h' | h'
            · exact Or.inl (List.mem_cons_of_mem _ h')
            · rcases List.mem_cons.mp h' with h' | h'
              · exact Or.inl (h' ▸ List.mem_cons_self _ _)
              · exact Or.inr (List.mem_append.mpr (Or.inl h'))
        · intro x hx hgx q hq hrev hfl
          rcases List.mem_cons.mp hx with hx | hx
          · subst hx
            by_cases hqc : q ∈ x :: checked
            · exact Or.inl hqc
            · refine Or.inr (List.mem_append.mpr (Or.inr ?_))
              rw [List.mem_filter]
              exact ⟨hq, decide_eq_true (by exact ⟨hqc, hrev, hfl⟩)⟩
          · rcases inv3 x hx hgx q hq hrev hfl with h' | h'
            · exact Or.inl (List.mem_cons_of_mem _ h')
            · rcases List.mem_cons.mp h' with h' | h'
              · exact Or.inl (h' ▸ List.mem_cons_self _ _)
              · exact Or.inr (List.mem_append.mpr (Or.inl h'))
      · simp only [revealLoopQ, if_neg hg, List.append_nil] at h
        refine ih _ _ _ _ h ?_ ?_ ?_
        · intro q hq
          rcases List.mem_cons.mp hq with hq | hq
          · subst hq; exact List.mem_insert_self _ _
          · exact List.mem_insert_iff.mpr (Or.inr (inv1 q hq))
        · intro q hq
          rcases List.mem_insert_iff.mp hq with hq | hq
          · exact Or.inl (hq ▸ List.mem_cons_self _ _)
          · rcases inv2 q hq with h' | h'
            · exact Or.inl (List.mem_cons_of_mem _ h')
            · rcases List.mem_cons.mp h' with h' | h'
              · exact Or.inl (h' ▸ List.mem_cons_self _ _)
              · exact Or.inr h'
        · intro x hx hgx q hq hrev hfl
          rcases List.mem_cons.mp hx with hx | hx
          · subst hx
            exact absurd hgx hg
          · rcases inv3 x hx hgx q hq hrev hfl with h' | h'
            · exact Or.inl (List.mem_cons_of_mem _ h')
            · rcases List.mem_cons.mp h' with h' | h'
              · exact Or.inl (h' ▸ List.mem_cons_self _ _)
              · exact Or.inr h'

theorem revealLoopQ_run_iff {sr sc : Nat} {fuel : Nat} {res : List Cell}
    (h : revealLoopQ rows cols flagged adj revealed fuel [(sr, sc)] [] [(sr, sc)] = some res) :
    ∀ q, q ∈ res ↔ Reach rows cols flagged adj revealed (sr, sc) q := by
  intro q
  constructor
  · intro hq
    refine revealLoopQ_reach (sr, sc) fuel _ _ _ _ h ?_ ?_ q hq
    · intro x hx
      rcases List.mem_singleton.mp hx with rfl
      exact Reach.seed
    · intro x hx
      rcases List.mem_singleton.mp hx with rfl
      exact Reach.seed
  · intro hq
    induction hq with
    | seed =>
      exact revealLoopQ_mem_res fuel _ _ _ _ h _ (Or.inl (List.mem_singleton.mpr rfl))
    | step hp hgp hn hrev hfl ihp =>
      refine revealLoopQ_closed fuel _ _ _ _ h ?_ ?_ ?_ _ ihp hgp _ hn hrev hfl
      · intro x hx
        simp at hx
      · intro x hx
        exact Or.inr hx
      · intro x hx
        simp at hx

theorem reveal_squareQ_mem {r c : Nat} {auto : Bool} {fuel : Nat} {res : List Cell}
    (h : reveal_squareQ flagged adj revealed r c auto fuel = some res) :
    ∀ q, q ∈ res ↔ RevealSpec flagged adj revealed r c auto q := by
  unfold reveal_squareQ at h
  unfold RevealSpec
  intro q
  by_cases hcond : auto = false ∧ gget adj r c ≠ 0
  · rw [if_pos hcond] at h
    rw [if_pos hcond]
    injection h with h
    subst h
    simp
  · rw [if_neg hcond] at h
    rw [if_neg hcond]
    exact revealLoopQ_run_iff h q

end RevealQLemmas

section MineSampling

variable {rows cols : Nat} {ratio : ℚ} {stream : Nat → List Nat → List Nat} {r c : Nat}

theorem findMines_safe :
    ∀ (fuel idx : Nat) {g : GridT},
      findMines rows cols ratio stream r c fuel idx = some g →
      gget g r c = 0 ∧ ∃ n : Nat, g = init_mines rows cols ratio (stream n) := by
  intro fuel
  induction fuel with
  | zero => intro idx g h; simp [findMines] at h
  | succ fuel ih =>
    intro idx g h
    by_cases h0 : gget (init_mines rows cols ratio (stream idx)) r c ≠ 0
    · rw [findMines, if_pos h0] at h
      exact ih (idx + 1) h
    · rw [findMines, if_neg h0] at h
      injection h with h
      subst h
      exact ⟨by simpa using h0, idx, rfl⟩

theorem findMines_of_safe :
    ∀ (k idx : Nat), gget (init_mines rows cols ratio (stream (idx + k))) r c = 0 →
      ∃ (fuel : Nat) (g : GridT),
        findMines rows cols ratio stream r c fuel idx = some g ∧ gget g r c = 0 := by
  intro k
  induction k with
  | zero =>
    intro idx hsafe
    rw [Nat.add_zero] at hsafe
    refine ⟨1, init_mines rows cols ratio (stream idx), ?_, hsafe⟩
    rw [findMines, if_neg (by simpa using hsafe)]
  | succ k ih =>
    intro idx hsafe
    by_cases h0 : gget (init_mines rows cols ratio (stream idx)) r c = 0
    · refine ⟨1, init_mines rows cols ratio (stream idx), ?_, h0⟩
      rw [findMines, if_neg (by simpa using h0)]
    · obtain ⟨fuel, g, hf, hg⟩ := ih (idx + 1) (by
        rw [show idx + 1 + k = idx + (k + 1) by omega]
        exact hsafe)
      refine ⟨fuel + 1, g, ?_, hg⟩
      rw [findMines, if_pos (by simpa using h0)]
      exact hf

theorem pyRound_le {q : ℚ} {t : Nat} (h : q ≤ t) : pyRound q ≤ (t : ℤ) := by
  simp only [pyRound]
  have hf : ((Rat.floor q : ℤ) : ℚ) ≤ q := Rat.le_floor.mp le_rfl
  split_ifs with h1 h2 h3
  · exact_mod_cast hf.trans h
  · have hlt : ((Rat.floor q : ℤ) : ℚ) < (t : ℚ) := by linarith
    have : Rat.floor q < (t : ℤ) := by exact_mod_cast hlt
    omega
  · exact_mod_cast hf.trans h
  · have hhalf : q - (Rat.floor q : ℚ) = 1 / 2 := by linarith
    have hlt : ((Rat.floor q : ℤ) : ℚ) < (t : ℚ) := by linarith
    have : Rat.floor q < (t : ℤ) := by exact_mod_cast hlt
    omega

theorem numMines_le {rows cols : Nat} {ratio : ℚ} (_h0 : 0 ≤ ratio) (h1 : ratio ≤ 1) :
    numMines rows cols ratio ≤ rows * cols := by
  unfold numMines
  have hcast : (0 : ℚ) ≤ ((rows * cols : Nat) : ℚ) := by positivity
  have hq : ((rows * cols : Nat) : ℚ) * ratio ≤ ((rows * cols : Nat) : ℚ) :=
    mul_le_of_le_one_right hcast h1
  have := pyRound_le hq
  exact Int.toNat_le.mpr (by exact_mod_cast this)

theorem baseMines_sum (total m : Nat) : (baseMines total m).sum = m := by
  simp [baseMines, List.sum_replicate]

theorem baseMines_length {total m : Nat} (h : m ≤ total) :
    (baseMines total m).length = total := by
  simp only [baseMines, List.length_append, List.length_replicate]
  omega

theorem gridSum_reshape :
    ∀ (rows cols : Nat) (l : List Nat), l.length = rows * cols →
      gridSum (reshape rows cols l) = l.sum := by
  intro rows
  induction rows with
  | zero =>
    intro cols l h
    simp only [Nat.zero_mul] at h
    rw [List.eq_nil_of_length_eq_zero h]
    simp [reshape, gridSum]
  | succ rows ih =>
    intro cols l h
    have hdrop : (l.drop cols).length = rows * cols := by
      rw [List.length_drop, h, Nat.succ_mul]
      omega
    simp only [reshape, gridSum, List.map_cons, List.sum_cons]
    rw [show ((reshape rows cols (l.drop cols)).map List.sum).sum =
          gridSum (reshape rows cols (l.drop cols)) from rfl]
    rw [ih cols _ hdrop]
    rw [← List.sum_append, List.take_append_drop]

theorem init_mines_sum {rows cols : Nat} {ratio : ℚ} {shuffle : List Nat → List Nat}
    (hperm : ∀ l, (shuffle l).Perm l) (h0 : 0 ≤ ratio) (h1 : ratio ≤ 1) :
    gridSum (init_mines rows cols ratio shuffle) = numMines rows cols ratio := by
  unfold init_mines
  have hlen : (shuffle (baseMines (rows * cols) (numMines rows cols ratio))).length
      = rows * cols :=
    (hperm _).length_eq.trans (baseMines_length (numMines_le h0 h1))
  rw [gridSum_reshape _ _ _ hlen, (hperm _).sum_eq, baseMines_sum]

end MineSampling

section Adjacency

theorem sum_map_indicator {α : Type} (l : List α) (p : α → Prop) [DecidablePred p] :
    (l.map fun x => if p x then 1 else 0).sum = (l.filter fun x => decide (p x)).length := by
  induction l with
  | nil => rfl
  | cons a l ih =>
    by_cases hp : p a <;> simp [hp, ih, Nat.add_comm]

theorem ggetI_indicator {g : GridT} {rows cols : Nat}
    (hrect : rectGrid g rows cols) (hbin : binGrid g) (i j : ℤ) :
    ggetI g i j =
      if 0 ≤ i ∧ i < rows ∧ 0 ≤ j ∧ j < cols ∧ gget g i.toNat j.toNat = 1 then 1 else 0 := by
  unfold ggetI
  by_cases hsign : 0 ≤ i ∧ 0 ≤ j
  · rw [if_pos hsign]
    by_cases hir : i < rows
    · by_cases hjc : j < cols
      · have hle := binGrid_gget_le_one hbin i.toNat j.toNat
        rcases Nat.lt_or_ge (gget g i.toNat j.toNat) 1 with h1 | h1
        · rw [if_neg (by omega), Nat.lt_one_iff.mp h1]
        · have : gget g i.toNat j.toNat = 1 := by omega
          rw [if_pos ⟨hsign.1, hir, hsign.2, hjc, this⟩, this]
      · have : cols ≤ j.toNat := by omega
        rw [gget_eq_zero_of_col_ge hrect this, if_neg (by tauto)]
    · have : rows ≤ i.toNat := by omega
      rw [gget_eq_zero_of_row_ge hrect this, if_neg (by tauto)]
  · rw [if_neg hsign, if_neg (by tauto)]

theorem adjCount_eq_mineNeighborCount {g : GridT} {rows cols : Nat}
    (hrect : rectGrid g rows cols) (hbin : binGrid g) (r c : Nat) :
    adjCount g r c = mineNeighborCount g rows cols r c := by
  unfold adjCount mineNeighborCount
  rw [List.map_congr_left fun d _ => ggetI_indicator hrect hbin ((r : ℤ) + d.1) ((c : ℤ) + d.2)]
  exact sum_map_indicator kernelOffsets fun d =>
    0 ≤ (r : ℤ) + d.1 ∧ (r : ℤ) + d.1 < rows ∧
    0 ≤ (c : ℤ) + d.2 ∧ (c : ℤ) + d.2 < cols ∧
    gget g ((r : ℤ) + d.1).toNat ((c : ℤ) + d.2).toNat = 1

theorem generate_adjacency_gget {g : GridT} {rows cols : Nat}
    (hrect : rectGrid g rows cols) {r c : Nat} (hr : r < rows) (hc : c < cols) :
    gget (generate_adjacency_matrix g) r c = adjCount g r c := by
  unfold generate_adjacency_matrix gget
  have hrlen : r < g.length := hrect.1 ▸ hr
  have hwidth : width g = cols := rectGrid_row_len hrect (by omega : 0 < rows)
  have h1 : ((List.range g.length).map fun r =>
      (List.range (width g)).map fun c => adjCount g r c)[r]? =
      some ((List.range (width g)).map fun c => adjCount g r c) := by
    rw [List.getElem?_map, List.getElem?_range hrlen]
    rfl
  rw [h1]
  simp only [Option.getD_some]
  have h2 : ((List.range (width g)).map fun c => adjCount g r c)[c]? =
      some (adjCount g r c) := by
    rw [List.getElem?_map, List.getElem?_range (by omega : c < width g)]
    rfl
  rw [h2]
  rfl

end Adjacency

section Helpers

theorem setRow_length (row : List Nat) (c v : Nat) : (setRow row c v).length = row.length := by
  induction row generalizing c with
  | nil => rfl
  | cons w vs ih =>
    cases c with
    | zero => rfl
    | succ c => simp [setRow, ih c]

theorem setCell_length (g : GridT) (r c v : Nat) : (setCell g r c v).length = g.length := by
  induction g generalizing r with
  | nil => rfl
  | cons row rest ih =>
    cases r with
    | zero => rfl
    | succ r => simp [setCell, ih r]

theorem setCell_mem_len :
    ∀ (g : GridT) (r c v cols : Nat), (∀ row ∈ g, row.length = cols) →
      ∀ x ∈ setCell g r c v, x.length = cols := by
  intro g
  induction g with
  | nil => intro r c v cols _ x hx; simp [setCell] at hx
  | cons row rest ih =>
    intro r c v cols hrow x hx
    cases r with
    | zero =>
      rcases List.mem_cons.mp hx with hx | hx
      · subst hx
        rw [setRow_length]
        exact hrow row (List.mem_cons_self _ _)
      · exact hrow x (List.mem_cons_of_mem _ hx)
    | succ r =>
      rcases List.mem_cons.mp hx with hx | hx
      · subst hx
        exact hrow x (List.mem_cons_self _ _)
      · exact ih r c v cols (fun y hy => hrow y (List.mem_cons_of_mem _ hy)) x hx

theorem setCell_rect {g : GridT} {rows cols : Nat} (h : rectGrid g rows cols) (r c v : Nat) :
    rectGrid (setCell g r c v) rows cols :=
  ⟨by rw [setCell_length, h.1], setCell_mem_len g r c v cols h.2⟩

theorem clipList_lt {n x : Nat} (hn : 0 < n) {v : Nat} (hv : v ∈ clipList n x) : v < n := by
  simp only [clipList, List.mem_map, List.mem_cons, List.mem_singleton] at hv
  obtain ⟨w, _, hw⟩ := hv
  subst hw
  omega

theorem nbhd_bounds {rows cols : Nat} (hrow : 0 < rows) (hcol : 0 < cols) {p q : Cell}
    (h : q ∈ nbhd rows cols p) : q.1 < rows ∧ q.2 < cols := by
  unfold nbhd at h
  rw [List.mem_dedup] at h
  simp only [List.mem_flatMap, List.mem_map] at h
  obtain ⟨a, ha, b, hb, hq⟩ := h
  subst hq
  exact ⟨clipList_lt hrow ha, clipList_lt hcol hb⟩

theorem reveal_square_seed_mem {flagged adj revealed : GridT} {r c : Nat} {auto : Bool}
    {fuel : Nat} {res : List Cell}
    (h : reveal_square flagged adj revealed r c auto fuel = some res) : (r, c) ∈ res := by
  unfold reveal_square at h
  by_cases hcond : auto = false ∧ gget adj r c ≠ 0
  · rw [if_pos hcond] at h
    injection h with h
    subst h
    exact List.mem_singleton.mpr rfl
  · rw [if_neg hcond] at h
    exact revealLoop_mem_res _ _ _ _ _ h _ (Or.inl (List.mem_singleton.mpr rfl))

theorem initBranch_fields {f : Field} {stream : Nat → List Nat → List Nat} {r c fuel : Nat}
    {g : Field}
    (h : (if f.isInit then some f else f.lazyInit stream r c fuel) = some g) :
    g.flagged = f.flagged ∧ g.revealed = f.revealed ∧ g.rows = f.rows ∧ g.cols = f.cols ∧
      g.mine_ratio = f.mine_ratio := by
  by_cases hb : f.isInit
  · rw [if_pos hb] at h
    injection h with h
    subst h
    exact ⟨rfl, rfl, rfl, rfl, rfl⟩
  · rw [if_neg hb] at h
    unfold Field.lazyInit at h
    cases hfm : findMines f.rows f.cols f.mine_ratio stream r c fuel 0 with
    | none => rw [hfm] at h; exact Option.noConfusion h
    | some m =>
      rw [hfm] at h
      have h' : some (Field.mk f.rows f.cols f.mine_ratio f.revealed (some m)
          (some (generate_adjacency_matrix m)) f.flagged) = some g := h
      injection h' with h'
      subst h'
      exact ⟨rfl, rfl, rfl, rfl, rfl⟩

theorem pick_square_destruct {f : Field} {stream : Nat → List Nat → List Nat}
    {r c : Nat} {auto : Bool} {fuel : Nat} {b : Bool} {f' : Field}
    (h : f.pick_square stream r c auto fuel = some (b, f')) :
    ∃ (g : Field) (upd : List Cell),
      (if f.isInit then some f else f.lazyInit stream r c fuel) = some g ∧
      reveal_square g.flagged (g.adjacency.getD []) g.revealed r c auto fuel = some upd ∧
      f' = { g with revealed := orInto g.revealed upd } ∧
      b = !(gridAnyPos (g.mines.getD []) (orInto g.revealed upd)) := by
  unfold Field.pick_square at h
  cases hini : (if f.isInit then some f else f.lazyInit stream r c fuel) with
  | none => rw [hini] at h; exact Option.noConfusion h
  | some g =>
    rw [hini] at h
    have h' : ((reveal_square g.flagged (g.adjacency.getD []) g.revealed r c auto fuel).map
        fun upd =>
          ((!(gridAnyPos (g.mines.getD []) (orInto g.revealed upd)) : Bool),
            { g with revealed := orInto g.revealed upd })) = some (b, f') := h
    cases hrev : reveal_square g.flagged (g.adjacency.getD []) g.revealed r c auto fuel with
    | none => rw [hrev] at h'; exact Option.noConfusion h'
    | some upd =>
      rw [hrev] at h'
      have h'' : ((!(gridAnyPos (g.mines.getD []) (orInto g.revealed upd)) : Bool),
          ({ g with revealed := orInto g.revealed upd } : Field)) = (b, f') := by
        injection h'
      rw [Prod.mk.injEq] at h''
      exact ⟨g, upd, rfl, hrev, h''.2.symm, h''.1.symm⟩

theorem pick_square_init_eq {f : Field} {m a : GridT} (hm : f.mines = some m)
    (ha : f.adjacency = some a) {stream : Nat → List Nat → List Nat}
    {r c : Nat} {auto : Bool} {fuel : Nat} {b : Bool} {f' : Field}
    (h : f.pick_square stream r c auto fuel = some (b, f')) :
    ∃ upd : List Cell,
      reveal_square f.flagged a f.revealed r c auto fuel = some upd ∧
      f' = { f with revealed := orInto f.revealed upd } ∧
      b = !(gridAnyPos m (orInto f.revealed upd)) := by
  obtain ⟨g, upd, hini, hrev, hf', hb⟩ := pick_square_destruct h
  have hinit : f.isInit = true := by
    unfold Field.isInit
    rw [hm, ha]
    rfl
  rw [hinit, if_pos rfl] at hini
  injection hini with hini
  subst hini
  rw [ha] at hrev
  rw [hm] at hb
  exact ⟨upd, hrev, hf', hb⟩

end Helpers

theorem rat_floor_eq_intFloor (q : ℚ) : Rat.floor q = ⌊q⌋ := rfl

theorem numMines_half : numMines 1 2 ((1 : ℚ) / 2) = 1 := by
  simp only [numMines, pyRound, rat_floor_eq_intFloor]
  norm_num

theorem numMines_four_fifths : numMines 1 2 ((4 : ℚ) / 5) = 2 := by
  simp only [numMines, pyRound, rat_floor_eq_intFloor]
  norm_num
  rfl

theorem init_mines_half : init_mines 1 2 ((1 : ℚ) / 2) id = [[1, 0]] := by
  rw [init_mines, numMines_half]
  rfl

theorem init_mines_four_fifths : init_mines 1 2 ((4 : ℚ) / 5) id = [[1, 1]] := by
  rw [init_mines, numMines_four_fifths]
  rfl

theorem findMines_half : findMines 1 2 ((1 : ℚ) / 2) (fun _ => id) 0 1 1 0 = some [[1, 0]] := by
  rw [findMines, init_mines_half]
  decide

theorem pick_half : (mkField 1 2 ((1 : ℚ) / 2)).pick_square (fun _ => id) 0 1 false 1 =
    some (true, ⟨1, 2, (1 : ℚ) / 2, [[0, 1]], some [[1, 0]], some [[1, 1]], [[0, 0]]⟩) := by
  simp only [Field.pick_square, Field.isInit, Field.lazyInit, mkField]
  rw [findMines_half]
  rfl

theorem findMines_four_fifths_none :
    ∀ fuel idx : Nat, findMines 1 2 ((4 : ℚ) / 5) (fun _ => id) 0 0 fuel idx = none := by
  intro fuel
  induction fuel with
  | zero => intro idx; rfl
  | succ fuel ih =>
    intro idx
    rw [findMines, init_mines_four_fifths, if_pos (by decide)]
    exact ih (idx + 1)

/-- C1: `Field.from_mine_matrix` never returns a field at all: its assignment
`to_return.adjacency_matrix = generate_adjacency_matrix(mines)` targets the
read-only `adjacency_matrix` property (which has no setter), so the
constructor raises `AttributeError` for every input mine grid instead of
producing an initialized field. -/
theorem from_mine_matrix_raises (mines : GridT) : from_mine_matrix mines = none := rfl

/-- C2, counterexample: with `rows = 1`, `cols = 2` and `mine_ratio = 4/5 < 1`,
`round(rows*cols*mine_ratio) = 2` equals the number of cells, every sample of
`initialize_mines` is the fully mined grid, and the resampling loop of
`Field._initialize` never finishes, whatever fuel it is given — so
`mine_ratio < 1.0` alone does not make the lazy-initialization loop
terminate. -/
theorem resampling_loop_diverges :
    ((4 : ℚ) / 5 < 1) ∧ numMines 1 2 ((4 : ℚ) / 5) = 1 * 2 ∧
    ¬ ∃ (fuel : Nat) (g : GridT),
        findMines 1 2 ((4 : ℚ) / 5) (fun _ => id) 0 0 fuel 0 = some g := by
  refine ⟨by norm_num, by rw [numMines_four_fifths], ?_⟩
  rintro ⟨fuel, g, hg⟩
  rw [findMines_four_fifths_none fuel 0] at hg
  exact Option.noConfusion hg

/-- C2, amended: the resampling loop of `Field._initialize` performs finitely
many iterations whenever the given random source eventually samples a layout
with no mine at the picked coordinate; the loop then returns such a layout.
(`mine_ratio < 1.0` alone does not guarantee this, since
`round(rows*cols*mine_ratio)` can equal `rows*cols`.) -/
theorem resampling_terminates_of_eventual_safety (rows cols : Nat) (ratio : ℚ)
    (stream : Nat → List Nat → List Nat) (r c : Nat)
    (h : ∃ n : Nat, gget (init_mines rows cols ratio (stream n)) r c = 0) :
    ∃ (fuel : Nat) (g : GridT),
      findMines rows cols ratio stream r c fuel 0 = some g ∧ gget g r c = 0 := by
  obtain ⟨n, hn⟩ := h
  exact findMines_of_safe n 0 (by simpa using hn)

/-- Witness for the amended C2 at a concrete input. -/
theorem resampling_terminates_witness :
    (∃ n : Nat, gget (init_mines 1 2 ((1 : ℚ) / 2) ((fun _ => id) n)) 0 1 = 0) ∧
    ∃ (fuel : Nat) (g : GridT),
      findMines 1 2 ((1 : ℚ) / 2) (fun _ => id) 0 1 fuel 0 = some g ∧ gget g 0 1 = 0 :=
  ⟨⟨0, by rw [show ((fun _ => id) 0 : List Nat → List Nat) = id from rfl, init_mines_half]; rfl⟩,
    resampling_terminates_of_eventual_safety 1 2 ((1 : ℚ) / 2) (fun _ => id) 0 1
      ⟨0, by rw [show ((fun _ => id) 0 : List Nat → List Nat) = id from rfl, init_mines_half]; rfl⟩⟩

/-- C3: when `pick_square` is called on an uninitialized field and the lazy
initialization completes, the stored mine grid has no mine at the picked
coordinate and its total number of mines is exactly
`round(rows*cols*mine_ratio)`, however many resampling iterations occurred
(the random source shuffles, i.e. permutes, the flat mine array). -/
theorem first_pick_mines_safe_count (f : Field) (stream : Nat → List Nat → List Nat)
    (r c : Nat) (auto : Bool) (fuel : Nat) (b : Bool) (f' : Field)
    (hperm : ∀ (n : Nat) (l : List Nat), (stream n l).Perm l)
    (h0 : 0 ≤ f.mine_ratio) (h1 : f.mine_ratio ≤ 1)
    (hni : f.isInit = false)
    (h : f.pick_square stream r c auto fuel = some (b, f')) :
    ∃ m : GridT, f'.mines = some m ∧ gget m r c = 0 ∧
      gridSum m = numMines f.rows f.cols f.mine_ratio := by
  obtain ⟨g, upd, hini, hrev, hf', hb⟩ := pick_square_destruct h
  rw [hni] at hini
  simp only [Bool.false_eq_true, if_false] at hini
  unfold Field.lazyInit at hini
  cases hfm : findMines f.rows f.cols f.mine_ratio stream r c fuel 0 with
  | none => rw [hfm] at hini; exact Option.noConfusion hini
  | some m =>
    rw [hfm] at hini
    have hg : some (Field.mk f.rows f.cols f.mine_ratio f.revealed (some m)
        (some (generate_adjacency_matrix m)) f.flagged) = some g := hini
    injection hg with hg
    subst hg
    obtain ⟨hsafe, n, hmn⟩ := findMines_safe fuel 0 hfm
    refine ⟨m, ?_, hsafe, ?_⟩
    · rw [hf']
    · rw [hmn]
      exact init_mines_sum (fun l => hperm n l) h0 h1

/-- Witness for C3 at a concrete uninitialized 1×2 field with ratio 1/2. -/
theorem first_pick_witness :
    (mkField 1 2 ((1 : ℚ) / 2)).isInit = false ∧
    ∃ m : GridT,
      (⟨1, 2, (1 : ℚ) / 2, [[0, 1]], some [[1, 0]], some [[1, 1]], [[0, 0]]⟩ : Field).mines
          = some m ∧
      gget m 0 1 = 0 ∧ gridSum m = numMines 1 2 ((1 : ℚ) / 2) :=
  ⟨rfl, first_pick_mines_safe_count (mkField 1 2 ((1 : ℚ) / 2)) (fun _ => id) 0 1 false 1 true _
    (fun _ l => List.Perm.refl l) (by simp only [mkField]; norm_num)
    (by simp only [mkField]; norm_num) rfl pick_half⟩

/-- C4: each entry of `generate_adjacency_matrix` equals the number of mined
cells in the 3×3 neighborhood of that cell clamped to the grid bounds, the
cell itself included and out-of-bounds positions contributing nothing. -/
theorem adjacency_counts_neighborhood (g : GridT) (rows cols : Nat)
    (hrect : rectGrid g rows cols) (hbin : binGrid g) (r c : Nat)
    (hr : r < rows) (hc : c < cols) :
    gget (generate_adjacency_matrix g) r c = mineNeighborCount g rows cols r c := by
  rw [generate_adjacency_gget hrect hr hc]
  exact adjCount_eq_mineNeighborCount hrect hbin r c

/-- Witness for C4 at a concrete 2×3 grid. -/
theorem adjacency_counts_witness :
    rectGrid [[1, 0, 0], [0, 1, 0]] 2 3 ∧ binGrid [[1, 0, 0], [0, 1, 0]] ∧
    gget (generate_adjacency_matrix [[1, 0, 0], [0, 1, 0]]) 1 0 =
      mineNeighborCount [[1, 0, 0], [0, 1, 0]] 2 3 1 0 :=
  ⟨by decide, by decide,
    adjacency_counts_neighborhood [[1, 0, 0], [0, 1, 0]] 2 3 (by decide) (by decide) 1 0
      (by decide) (by decide)⟩

/-- C5: for an initialized field, `pick_square` returns `false` exactly when,
after the flood fill's update set has been or-ed into `revealed`, some cell is
both mined and revealed; and every cell of the update set — mined or not — is
marked revealed in the resulting field. -/
theorem pick_false_iff_mine_revealed (f : Field) (m a : GridT)
    (stream : Nat → List Nat → List Nat) (r c : Nat) (auto : Bool) (fuel : Nat)
    (b : Bool) (f' : Field)
    (hm : f.mines = some m) (ha : f.adjacency = some a)
    (hrev : rectGrid f.revealed f.rows f.cols) (hmr : rectGrid m f.rows f.cols)
    (h : f.pick_square stream r c auto fuel = some (b, f')) :
    (b = false ↔ ∃ i j : Nat, gget m i j ≠ 0 ∧ gget f'.revealed i j ≠ 0) ∧
    (∀ upd : List Cell, reveal_square f.flagged a f.revealed r c auto fuel = some upd →
      ∀ q ∈ upd, q.1 < f.rows → q.2 < f.cols → gget f'.revealed q.1 q.2 ≠ 0) := by
  obtain ⟨upd, hrevs, hf', hb⟩ := pick_square_init_eq hm ha h
  subst hf'
  constructor
  · rw [hb]
    simp only [Bool.not_eq_false']
    exact gridAnyPos_iff hmr (orInto_rect hrev upd)
  · intro upd' hupd' q hq h1 h2
    rw [hrevs] at hupd'
    injection hupd' with hupd'
    subst hupd'
    exact orInto_gget_mem (by rw [hrev.1]; exact h1)
      (by rw [rectGrid_row_len hrev h1]; exact h2) hq

/-- Witness for C5: an auto-reveal chord whose cascade reveals a mine still
marks it revealed and returns `false`. -/
theorem pick_false_witness :
    (⟨1, 3, 0, [[0, 0, 0]], some [[0, 0, 1]], some [[0, 1, 1]], [[1, 0, 0]]⟩ : Field).pick_square
        (fun _ => id) 0 1 true 9 =
      some (false, ⟨1, 3, 0, [[0, 1, 1]], some [[0, 0, 1]], some [[0, 1, 1]], [[1, 0, 0]]⟩) ∧
    (false = false ↔ ∃ i j : Nat, gget [[0, 0, 1]] i j ≠ 0 ∧
      gget (⟨1, 3, 0, [[0, 1, 1]], some [[0, 0, 1]], some [[0, 1, 1]], [[1, 0, 0]]⟩ : Field).revealed
        i j ≠ 0) :=
  ⟨by decide,
    (pick_false_iff_mine_revealed
      ⟨1, 3, 0, [[0, 0, 0]], some [[0, 0, 1]], some [[0, 1, 1]], [[1, 0, 0]]⟩
      [[0, 0, 1]] [[0, 1, 1]] (fun _ => id) 0 1 true 9 false
      ⟨1, 3, 0, [[0, 1, 1]], some [[0, 0, 1]], some [[0, 1, 1]], [[1, 0, 0]]⟩
      rfl rfl (by decide) (by decide) (by decide)).1⟩

/-- C6: for a well-formed state not already marked won, the win check moves to
`Won` exactly when the field is initialized, the game is not lost, and
pointwise the mine grid is the negation of the revealed grid; in particular a
revealed mine rules the win out even if every non-mine cell is revealed. -/
theorem win_condition_iff (status : GameStatus) (f : Field) (m : GridT)
    (hm : f.mines = some m) (hWF : f.WF) (hs : status ≠ GameStatus.Won) :
    (evaluate_win_condition status f = GameStatus.Won ↔
      (status ≠ GameStatus.Lost ∧ f.isInit = true ∧
        ∀ r < f.rows, ∀ c < f.cols, (gget m r c ≠ 0 ↔ gget f.revealed r c = 0))) ∧
    ((∃ r c : Nat, gget m r c ≠ 0 ∧ gget f.revealed r c ≠ 0) →
      evaluate_win_condition status f ≠ GameStatus.Won) := by
  obtain ⟨hrect_rev, _, _, _, hrect_m, _, _⟩ := hWF
  have hm' : rectGrid m f.rows f.cols := by rw [hm] at hrect_m; exact hrect_m
  have hwin := winGridEq_iff (a := m) (b := f.revealed) hm' hrect_rev
  have hiff : evaluate_win_condition status f = GameStatus.Won ↔
      (status ≠ GameStatus.Lost ∧ f.isInit = true ∧
        ∀ r < f.rows, ∀ c < f.cols, (gget m r c ≠ 0 ↔ gget f.revealed r c = 0)) := by
    unfold evaluate_win_condition
    by_cases hl : status = GameStatus.Lost
    · rw [if_pos hl]
      subst hl
      exact ⟨fun hcon => absurd hcon (by decide), fun hcon => absurd rfl hcon.1⟩
    · rw [if_neg hl]
      by_cases hini : f.isInit = true
      · have hni' : (!f.isInit) = false := by rw [hini]; rfl
        rw [hni', if_neg (by decide : ¬ (false = true))]
        rw [hm]
        simp only [Option.getD_some]
        by_cases hwg : winGridEq m f.revealed = true
        · rw [if_pos hwg]
          exact ⟨fun _ => ⟨hl, hini, hwin.mp hwg⟩, fun _ => rfl⟩
        · rw [if_neg hwg]
          exact ⟨fun hcon => absurd hcon hs, fun hcon => absurd (hwin.mpr hcon.2.2) hwg⟩
      · rw [Bool.not_eq_true] at hini
        have hni' : (!f.isInit) = true := by rw [hini]; rfl
        rw [hni', if_pos rfl]
        refine ⟨fun hcon => absurd hcon hs, fun hcon => ?_⟩
        have := hcon.2.1
        rw [hini] at this
        exact absurd this (by decide)
  refine ⟨hiff, ?_⟩
  rintro ⟨i, j, hmi, hri⟩ hwon
  obtain ⟨_, _, hall⟩ := hiff.mp hwon
  have hi : i < f.rows := by
    by_contra hcon
    exact hmi (gget_eq_zero_of_row_ge hm' (by omega) j)
  have hj : j < f.cols := by
    by_contra hcon
    exact hmi (gget_eq_zero_of_col_ge hm' (by omega) i)
  exact hri ((hall i hi j hj).mp hmi)

/-- Witness for C6: a 2×2 board with both zero cells revealed and both mines
unrevealed is recognized as won. -/
theorem win_condition_witness :
    (⟨2, 2, 0, [[1, 0], [0, 1]], some [[0, 1], [1, 0]], some [[2, 2], [2, 2]],
      [[0, 0], [0, 0]]⟩ : Field).WF ∧
    evaluate_win_condition GameStatus.Playing
      ⟨2, 2, 0, [[1, 0], [0, 1]], some [[0, 1], [1, 0]], some [[2, 2], [2, 2]],
        [[0, 0], [0, 0]]⟩ = GameStatus.Won :=
  ⟨by decide,
    ((win_condition_iff GameStatus.Playing
      ⟨2, 2, 0, [[1, 0], [0, 1]], some [[0, 1], [1, 0]], some [[2, 2], [2, 2]],
        [[0, 0], [0, 0]]⟩
      [[0, 1], [1, 0]] rfl (by decide) (by decide)).1).mpr
      ⟨by decide, rfl, by decide⟩⟩

/-- C9: toggling a flag on an unrevealed in-bounds cell twice restores the
whole field (one toggle flips the flag), and toggling on a revealed cell is a
silent no-op that leaves the field unchanged. -/
theorem toggle_flag_spec (f : Field) (r c : Nat) (hWF : f.WF)
    (hr : r < f.rows) (hc : c < f.cols) :
    (gget f.revealed r c = 0 →
      (f.toggle_flag_square r c).toggle_flag_square r c = f ∧
      gget (f.toggle_flag_square r c).flagged r c = 1 - gget f.flagged r c) ∧
    (gget f.revealed r c ≠ 0 → f.toggle_flag_square r c = f) := by
  obtain ⟨hrect_rev, hrect_fl, hbin_rev, hbin_fl, _, _, _⟩ := hWF
  have hlen1 : r < f.flagged.length := by rw [hrect_fl.1]; exact hr
  have hlen2 : c < (f.flagged[r]?.getD []).length := by
    rw [rectGrid_row_len hrect_fl hr]; exact hc
  have hx : gget f.flagged r c ≤ 1 := binGrid_gget_le_one hbin_fl r c
  constructor
  · intro h0
    have hnot : ¬ (gget f.revealed r c ≠ 0) := by simpa using h0
    have heq1 : f.toggle_flag_square r c =
        { f with flagged := setCell f.flagged r c ((gget f.flagged r c + 1) % 2) } := by
      unfold Field.toggle_flag_square
      rw [if_neg hnot]
    have hAv : gget (setCell f.flagged r c ((gget f.flagged r c + 1) % 2)) r c =
        (gget f.flagged r c + 1) % 2 :=
      setCell_gget_self f.flagged r c _ hlen1 hlen2
    constructor
    · rw [heq1]
      obtain ⟨A, hA⟩ : ∃ A : GridT,
          setCell f.flagged r c ((gget f.flagged r c + 1) % 2) = A := ⟨_, rfl⟩
      rw [hA] at hAv ⊢
      have heq2 : ({ f with flagged := A } : Field).toggle_flag_square r c =
          { f with flagged := setCell A r c ((gget A r c + 1) % 2) } := by
        unfold Field.toggle_flag_square
        rw [if_neg hnot]
      rw [heq2, hAv,
        show ((gget f.flagged r c + 1) % 2 + 1) % 2 = gget f.flagged r c by omega,
        ← hA, setCell_setCell, setCell_self]
    · rw [heq1]
      show gget (setCell f.flagged r c ((gget f.flagged r c + 1) % 2)) r c =
        1 - gget f.flagged r c
      rw [hAv]
      omega
  · intro h1
    unfold Field.toggle_flag_square
    rw [if_pos h1]

/-- Witness for C9 on a concrete 1×1 field. -/
theorem toggle_flag_witness :
    (⟨1, 1, 0, [[0]], some [[0]], some [[0]], [[0]]⟩ : Field).WF ∧
    ((⟨1, 1, 0, [[0]], some [[0]], some [[0]], [[0]]⟩ : Field).toggle_flag_square 0 0
        ).toggle_flag_square 0 0 =
      ⟨1, 1, 0, [[0]], some [[0]], some [[0]], [[0]]⟩ :=
  ⟨by decide,
    ((toggle_flag_spec ⟨1, 1, 0, [[0]], some [[0]], some [[0]], [[0]]⟩ 0 0
      (by decide) (by decide) (by decide)).1 rfl).1⟩

/-- C7: the update set of the flood fill does not depend on the worklist
discipline: a terminating stack run and a terminating queue run of
`reveal_square`'s loop have the same members, and both equal the gating-rule
reachability closure of the seed (`RevealSpec`). -/
theorem reveal_square_order_independent (flagged adj revealed : GridT) (r c : Nat)
    (auto : Bool) (fuel1 fuel2 : Nat) (res1 res2 : List Cell)
    (h1 : reveal_square flagged adj revealed r c auto fuel1 = some res1)
    (h2 : reveal_squareQ flagged adj revealed r c auto fuel2 = some res2) :
    (∀ q : Cell, q ∈ res1 ↔ q ∈ res2) ∧
    (∀ q : Cell, q ∈ res1 ↔ RevealSpec flagged adj revealed r c auto q) := by
  have hs := reveal_square_mem h1
  have hq := reveal_squareQ_mem h2
  exact ⟨fun q => (hs q).trans (hq q).symm, hs⟩

/-- Witness for C7 on a 2×2 all-zero board. -/
theorem reveal_order_witness :
    reveal_square [[0, 0], [0, 0]] [[0, 0], [0, 0]] [[0, 0], [0, 0]] 0 0 false 20 =
      some [(1, 1), (1, 0), (0, 1), (0, 0)] ∧
    reveal_squareQ [[0, 0], [0, 0]] [[0, 0], [0, 0]] [[0, 0], [0, 0]] 0 0 false 20 =
      some [(1, 1), (1, 0), (0, 1), (0, 0)] ∧
    ((0, 1) ∈ [((1 : Nat), (1 : Nat)), (1, 0), (0, 1), (0, 0)] ↔
      (0, 1) ∈ [((1 : Nat), (1 : Nat)), (1, 0), (0, 1), (0, 0)]) :=
  ⟨by decide, by decide,
    (reveal_square_order_independent [[0, 0], [0, 0]] [[0, 0], [0, 0]] [[0, 0], [0, 0]]
      0 0 false 20 20 [(1, 1), (1, 0), (0, 1), (0, 0)] [(1, 1), (1, 0), (0, 1), (0, 0)]
      (by decide) (by decide)).1 (0, 1)⟩

theorem toggle_preserve {f : Field} {i j r c : Nat} (hrev : gget f.revealed r c ≠ 0) :
    (f.toggle_flag_square i j).revealed = f.revealed ∧
    gget (f.toggle_flag_square i j).flagged r c = gget f.flagged r c := by
  unfold Field.toggle_flag_square
  by_cases hij : gget f.revealed i j ≠ 0
  · rw [if_pos hij]
    exact ⟨rfl, rfl⟩
  · rw [if_neg hij]
    refine ⟨rfl, ?_⟩
    show gget (setCell f.flagged i j ((gget f.flagged i j + 1) % 2)) r c = gget f.flagged r c
    have hne : r ≠ i ∨ c ≠ j := by
      by_contra hcon
      push_neg at hcon
      rw [hcon.1, hcon.2] at hrev
      exact hij hrev
    exact setCell_gget_ne f.flagged i j _ r c hne

theorem pick_preserve {f : Field} {stream : Nat → List Nat → List Nat}
    {i j : Nat} {auto : Bool} {fuel : Nat} {b : Bool} {f' : Field}
    (h : f.pick_square stream i j auto fuel = some (b, f')) :
    f'.flagged = f.flagged ∧
    ∀ r c : Nat, gget f.revealed r c ≠ 0 → gget f'.revealed r c ≠ 0 := by
  obtain ⟨g, upd, hini, hrev, hf', hb⟩ := pick_square_destruct h
  obtain ⟨hgfl, hgrev, _, _, _⟩ := initBranch_fields hini
  subst hf'
  constructor
  · show g.flagged = f.flagged
    exact hgfl
  · intro r c hrc
    show gget (orInto g.revealed upd) r c ≠ 0
    rw [hgrev]
    exact orInto_gget_ne_zero hrc upd

theorem stepOp_preserve {stream : Nat → List Nat → List Nat} {f f' : Field} {op : GameOp}
    (h : stepOp stream f op = some f') {r c : Nat}
    (hrc : gget f.revealed r c ≠ 0 ∧ gget f.flagged r c ≠ 0) :
    gget f'.revealed r c ≠ 0 ∧ gget f'.flagged r c ≠ 0 := by
  cases op with
  | pick i j auto fuel =>
    simp only [stepOp] at h
    cases hp : f.pick_square stream i j auto fuel with
    | none => rw [hp] at h; exact Option.noConfusion h
    | some p =>
      obtain ⟨b0, f0⟩ := p
      rw [hp] at h
      injection h with h
      subst h
      obtain ⟨hfl, hmono⟩ := pick_preserve hp
      exact ⟨hmono r c hrc.1, by rw [hfl]; exact hrc.2⟩
  | toggle i j =>
    simp only [stepOp] at h
    injection h with h
    subst h
    obtain ⟨hrev, hfl⟩ := toggle_preserve (i := i) (j := j) hrc.1
    refine ⟨?_, by rw [hfl]; exact hrc.2⟩
    rw [hrev]
    exact hrc.1

theorem runOps_preserve {stream : Nat → List Nat → List Nat} :
    ∀ (ops : List GameOp) (f f' : Field), runOps stream f ops = some f' →
      ∀ r c : Nat, gget f.revealed r c ≠ 0 ∧ gget f.flagged r c ≠ 0 →
        gget f'.revealed r c ≠ 0 ∧ gget f'.flagged r c ≠ 0 := by
  intro ops
  induction ops with
  | nil =>
    intro f f' h r c hrc
    injection h with h
    subst h
    exact hrc
  | cons op ops ih =>
    intro f f' h r c hrc
    simp only [runOps] at h
    cases hstep : stepOp stream f op with
    | none => rw [hstep] at h; exact Option.noConfusion h
    | some g =>
      rw [hstep] at h
      exact ih g f' h r c (stepOp_preserve hstep hrc)

/-- C8: on an initialized well-formed field, picking the same in-bounds cell
twice in immediate succession leaves the revealed grid of the second result
equal to that of the first, and the second call returns the same boolean. -/
theorem pick_square_idempotent (f : Field) (m a : GridT)
    (stream stream' : Nat → List Nat → List Nat) (r c : Nat) (auto : Bool)
    (fuel1 fuel2 : Nat) (b1 b2 : Bool) (f1 f2 : Field)
    (hm : f.mines = some m) (ha : f.adjacency = some a)
    (hrev : rectGrid f.revealed f.rows f.cols) (hfl : rectGrid f.flagged f.rows f.cols)
    (hr : r < f.rows) (hc : c < f.cols)
    (h1 : f.pick_square stream r c auto fuel1 = some (b1, f1))
    (h2 : f1.pick_square stream' r c auto fuel2 = some (b2, f2)) :
    f2.revealed = f1.revealed ∧ b2 = b1 := by
  obtain ⟨upd1, hrev1, hf1, hb1⟩ := pick_square_init_eq hm ha h1
  subst hf1
  obtain ⟨upd2, hrev2, hf2, hb2⟩ := pick_square_init_eq
    (f := { f with revealed := orInto f.revealed upd1 }) hm ha h2
  subst hf2
  have hspec1 := reveal_square_mem hrev1
  have hspec2 := reveal_square_mem hrev2
  have hseed1 : (r, c) ∈ upd1 := reveal_square_seed_mem hrev1
  have hrows_pos : 0 < f.flagged.length := by rw [hfl.1]; omega
  have hwid : width f.flagged = f.cols := rectGrid_row_len hfl (by omega)
  have hcols_pos : 0 < width f.flagged := by rw [hwid]; omega
  have hb_r : r < f.revealed.length := by rw [hrev.1]; exact hr
  have hb_c : c < (f.revealed[r]?.getD []).length := by
    rw [rectGrid_row_len hrev hr]; exact hc
  have hall : ∀ q : Cell, q ∈ upd2 → q = (r, c) := by
    intro q hq
    have hq2 := (hspec2 q).mp hq
    unfold RevealSpec at hq2
    by_cases hcond : auto = false ∧ gget a r c ≠ 0
    · rw [if_pos hcond] at hq2
      exact hq2
    · rw [if_neg hcond] at hq2
      have hq2' : Reach f.flagged.length (width f.flagged) f.flagged a
          (orInto f.revealed upd1) (r, c) q := hq2
      clear hq hq2
      induction hq2' with
      | seed => rfl
      | @step p q hp hg hn hrev0 hfl0 ihp =>
        subst ihp
        have hqb := nbhd_bounds hrows_pos hcols_pos hn
        have hreach : Reach f.flagged.length (width f.flagged) f.flagged a
            f.revealed (r, c) q :=
          Reach.step Reach.seed hg hn (orInto_gget_zero hrev0) hfl0
        have hq1 := (hspec1 q).mpr (by
          unfold RevealSpec
          rw [if_neg hcond]
          exact hreach)
        have hq1r := hqb.1
        have hq1c := hqb.2
        rw [hfl.1] at hq1r
        rw [hwid] at hq1c
        have hne : gget (orInto f.revealed upd1) q.1 q.2 ≠ 0 := by
          refine orInto_gget_mem ?_ ?_ hq1
          · rw [hrev.1]; exact hq1r
          · rw [rectGrid_row_len hrev hq1r]; exact hq1c
        exact absurd hrev0 hne
  have hR1 : gget (orInto f.revealed upd1) r c = gget f.revealed r c ||| 1 := by
    rw [orInto_gget, if_pos ⟨hb_r, hb_c, hseed1⟩]
  have heq : orInto (orInto f.revealed upd1) upd2 = orInto f.revealed upd1 := by
    apply orInto_eq_self
    intro i j _ _ hmem
    have hij := hall (i, j) hmem
    rw [Prod.mk.injEq] at hij
    rw [hij.1, hij.2, hR1, Nat.lor_assoc, show (1 ||| 1 : Nat) = 1 from rfl]
  constructor
  · show orInto (orInto f.revealed upd1) upd2 = orInto f.revealed upd1
    exact heq
  · rw [hb2, hb1]
    show (!(gridAnyPos m (orInto (orInto f.revealed upd1) upd2)))
        = !(gridAnyPos m (orInto f.revealed upd1))
    rw [heq]

/-- Witness for C8 on a concrete 1×1 mine-free field. -/
theorem pick_square_idempotent_witness :
    (⟨1, 1, 0, [[0]], some [[0]], some [[0]], [[0]]⟩ : Field).pick_square
        (fun _ => id) 0 0 false 5 =
      some (true, ⟨1, 1, 0, [[1]], some [[0]], some [[0]], [[0]]⟩) ∧
    (⟨1, 1, 0, [[1]], some [[0]], some [[0]], [[0]]⟩ : Field).pick_square
        (fun _ => id) 0 0 false 5 =
      some (true, ⟨1, 1, 0, [[1]], some [[0]], some [[0]], [[0]]⟩) ∧
    (⟨1, 1, 0, [[1]], some [[0]], some [[0]], [[0]]⟩ : Field).revealed =
      (⟨1, 1, 0, [[1]], some [[0]], some [[0]], [[0]]⟩ : Field).revealed :=
  ⟨by decide, by decide,
    (pick_square_idempotent ⟨1, 1, 0, [[0]], some [[0]], some [[0]], [[0]]⟩ [[0]] [[0]]
      (fun _ => id) (fun _ => id) 0 0 false 5 5 true true
      ⟨1, 1, 0, [[1]], some [[0]], some [[0]], [[0]]⟩
      ⟨1, 1, 0, [[1]], some [[0]], some [[0]], [[0]]⟩
      rfl rfl (by decide) (by decide) (by decide) (by decide)
      (by decide) (by decide)).1⟩

/-- C10: a pick at a flagged, unrevealed in-bounds cell always marks that cell
revealed while leaving its flag untouched, and once a cell is both revealed
and flagged, no sequence of `pick_square` or `toggle_flag_square` calls ever
clears its flag (or unreveals it). -/
theorem revealed_flag_permanence (f : Field) (r c : Nat) (hWF : f.WF)
    (hr : r < f.rows) (hc : c < f.cols) :
    (∀ (stream : Nat → List Nat → List Nat) (auto : Bool) (fuel : Nat)
        (b : Bool) (f' : Field),
      gget f.revealed r c = 0 → gget f.flagged r c ≠ 0 →
      f.pick_square stream r c auto fuel = some (b, f') →
      gget f'.revealed r c ≠ 0 ∧ gget f'.flagged r c = gget f.flagged r c) ∧
    (∀ (stream : Nat → List Nat → List Nat) (ops : List GameOp) (f' : Field),
      gget f.revealed r c ≠ 0 → gget f.flagged r c ≠ 0 →
      runOps stream f ops = some f' →
      gget f'.revealed r c ≠ 0 ∧ gget f'.flagged r c ≠ 0) := by
  obtain ⟨hrect_rev, _, _, _, _, _, _⟩ := hWF
  constructor
  · intro stream auto fuel b f' _hrev0 _hfl0 h
    obtain ⟨g, upd, hini, hrevs, hf', hb⟩ := pick_square_destruct h
    obtain ⟨hgfl, hgrev, _, _, _⟩ := initBranch_fields hini
    subst hf'
    have hseed : (r, c) ∈ upd := reveal_square_seed_mem hrevs
    constructor
    · show gget (orInto g.revealed upd) r c ≠ 0
      rw [hgrev]
      refine orInto_gget_mem ?_ ?_ hseed
      · rw [hrect_rev.1]; exact hr
      · rw [rectGrid_row_len hrect_rev hr]; exact hc
    · show gget g.flagged r c = gget f.flagged r c
      rw [hgfl]
  · intro stream ops f' hrev0 hfl0 h
    exact runOps_preserve ops f f' h r c ⟨hrev0, hfl0⟩

/-- Witness for C10 on a concrete 2×2 field with a flagged safe cell. -/
theorem revealed_flag_permanence_witness :
    (⟨2, 2, 0, [[0, 0], [0, 0]], some [[0, 1], [0, 0]], some [[1, 1], [1, 1]],
      [[1, 0], [0, 0]]⟩ : Field).WF ∧
    gget (⟨2, 2, 0, [[1, 0], [0, 0]], some [[0, 1], [0, 0]], some [[1, 1], [1, 1]],
      [[1, 0], [0, 0]]⟩ : Field).revealed 0 0 ≠ 0 ∧
    gget (⟨2, 2, 0, [[1, 0], [0, 0]], some [[0, 1], [0, 0]], some [[1, 1], [1, 1]],
      [[1, 0], [0, 0]]⟩ : Field).flagged 0 0 =
      gget (⟨2, 2, 0, [[0, 0], [0, 0]], some [[0, 1], [0, 0]], some [[1, 1], [1, 1]],
        [[1, 0], [0, 0]]⟩ : Field).flagged 0 0 :=
  ⟨by decide,
    (revealed_flag_permanence
      ⟨2, 2, 0, [[0, 0], [0, 0]], some [[0, 1], [0, 0]], some [[1, 1], [1, 1]],
        [[1, 0], [0, 0]]⟩ 0 0 (by decide) (by decide) (by decide)).1
      (fun _ => id) false 9 true
      ⟨2, 2, 0, [[1, 0], [0, 0]], some [[0, 1], [0, 0]], some [[1, 1], [1, 1]],
        [[1, 0], [0, 0]]⟩
      rfl (by decide) (by decide)⟩

end Minesweeper
